import Mathlib

/-!
Verification of the flat sorted-array map `idTFlatMap` from FlatMap.h.

The container stores key-value pairs (`idKeyVal`) in a contiguous array kept
strictly ascending by key under a caller-supplied comparator `comp` (a strict
weak ordering, by default the less-than operator).  Here the backing array is
modelled as a Lean `List`, machine `int` positions as `Int`, and the comparator
as a Boolean binary relation passed explicitly (it is a stateless template
parameter in the source).  Each method of the class becomes a function taking
the comparator and the container; mutating methods return the updated
container together with their C++ return value and the value written through
the optional out-parameter `*ppos`.
-/

/-- Key-value pair stored by the map (struct idKeyVal of FlatMap.h). -/
structure idKeyVal (Key Value : Type) where
  key : Key
  value : Value
deriving DecidableEq, Repr

namespace idTFlatMap

variable {Key Value : Type}

/-- Number of entries, `int Num() const { return container.Num(); }`. -/
def Num (container : List (idKeyVal Key Value)) : Int :=
  (container.length : Int)

/-- Checked array access `container[pos]` for a C++ `int` position: the element
at index `pos` when `0 <= pos < container.Num()`, and `none` when the access
would be out of bounds. -/
def getEntry (container : List (idKeyVal Key Value)) (pos : Int) :
    Option (idKeyVal Key Value) :=
  if h : 0 ≤ pos ∧ pos.toNat < container.length then
    some (container.get ⟨pos.toNat, h.2⟩)
  else
    none

/-- Loop of `FirstGE` (FlatMap.h lines 72-81), instrumented: starting from the
candidate `pos` (initially -1) and `span` (initially N+1), while `span > 1`
take `step = span >> 1`, read `container[pos + step]` and advance `pos` by
`step` exactly when that entry compares strictly less than `key`.  Returns the
final `pos` paired with the number of comparator invocations, or `none` if an
iteration would read out of bounds (proved unreachable below). -/
def firstGEAux (comp : Key → Key → Bool) (container : List (idKeyVal Key Value))
    (key : Key) (pos : Int) (span : Nat) : Option (Int × Nat) :=
  if 1 < span then
    -- step = span >> 1, written inline as span / 2; a none from the
    -- out-of-bounds read propagates through bind
    (getEntry container (pos + ((span / 2 : Nat) : Int))).bind fun e =>
      (firstGEAux comp container key
          (if comp e.key key then pos + ((span / 2 : Nat) : Int) else pos)
          (span - span / 2)).map fun rc => (rc.1, rc.2 + 1)
  else
    some (pos, 0)
termination_by span
decreasing_by
  omega

/-- Method `FirstGE`: index of the first element that is greater or equal to
`key`, in range [0..N].  The `none` branch of the loop is proved unreachable,
so the fallback value 0 is never produced by it. -/
def FirstGE (comp : Key → Key → Bool) (container : List (idKeyVal Key Value))
    (key : Key) : Int :=
  ((firstGEAux comp container key (-1) (container.length + 1)).map
    fun rc => rc.1 + 1).getD 0

/-- Number of comparator invocations performed by `FirstGE` (0 if the loop
would go out of bounds, which it never does). -/
def FirstGECalls (comp : Key → Key → Bool)
    (container : List (idKeyVal Key Value)) (key : Key) : Nat :=
  ((firstGEAux comp container key (-1) (container.length + 1)).map
    fun rc => rc.2).getD 0

/-- Method `Insert`: inserts a new element at an already found position,
`container.Insert(KeyVal{key, value}, pos)`.  The debug asserts of the source
become the precondition `InsertPre` used by the invariant theorems. -/
def Insert (container : List (idKeyVal Key Value)) (key : Key) (value : Value)
    (pos : Int) : List (idKeyVal Key Value) :=
  container.insertIdx pos.toNat ⟨key, value⟩

/-- Precondition of `Insert` (the asserts at FlatMap.h lines 84-86, with the
last one strengthened from "not less" to "strictly greater" as the spec
states, since equal keys are disallowed at this layer): `0 <= pos <= N`, the
entry before `pos` (if any) is strictly less than `key`, and the entry at
`pos` (if any) is strictly greater than `key`. -/
def InsertPre (comp : Key → Key → Bool) (container : List (idKeyVal Key Value))
    (key : Key) (pos : Int) : Prop :=
  0 ≤ pos ∧ pos ≤ Num container ∧
    (∀ e ∈ getEntry container (pos - 1), comp e.key key = true) ∧
    (∀ e ∈ getEntry container pos, comp key e.key = true)

/-- Method `RemoveIndex`: removes the element at index `pos`,
`container.RemoveIndex(pos)`. -/
def RemoveIndex (container : List (idKeyVal Key Value)) (pos : Int) :
    List (idKeyVal Key Value) :=
  container.eraseIdx pos.toNat

/-- Method `Find`: pointer to the element with the given key, or NULL if not
present, modelled as an `Option` of the pointed-to entry. -/
def Find (comp : Key → Key → Bool) (container : List (idKeyVal Key Value))
    (key : Key) : Option (idKeyVal Key Value) :=
  let pos := FirstGE comp container key
  match getEntry container pos with
  | some e => if comp key e.key = false then some e else none
  | none => none

/-- Method `FindIndex`: index of the element with the given key, or -1 if not
present. -/
def FindIndex (comp : Key → Key → Bool) (container : List (idKeyVal Key Value))
    (key : Key) : Int :=
  let pos := FirstGE comp container key
  match getEntry container pos with
  | some e => if comp key e.key = false then pos else -1
  | none => -1

/-- Method `Get`: value assigned to the specified key, or the passed default
if not found.  The C++ default argument `Value()` becomes an explicit
argument. -/
def Get (comp : Key → Key → Bool) (container : List (idKeyVal Key Value))
    (key : Key) (dflt : Value) : Value :=
  let pos := FirstGE comp container key
  match getEntry container pos with
  | some e => if comp key e.key = false then e.value else dflt
  | none => dflt

/-- Method `operator[]`: reference to the value assigned to the key, inserting
the key with a default-constructed value beforehand when absent.  Returns the
updated container and the referenced value. -/
def opIndex [Inhabited Value] (comp : Key → Key → Bool)
    (container : List (idKeyVal Key Value)) (key : Key) :
    List (idKeyVal Key Value) × Value :=
  let pos := FirstGE comp container key
  match getEntry container pos with
  | some e =>
    if comp key e.key = false then (container, e.value)
    else
      let c2 := Insert container key default pos
      (c2, ((getEntry c2 pos).map idKeyVal.value).getD default)
  | none =>
    let c2 := Insert container key default pos
    (c2, ((getEntry c2 pos).map idKeyVal.value).getD default)

/-- Method `Set`: assign the value for the given key, overwriting if already
present; returns the updated container, the C++ return value (true iff the
key was NOT present), and the index written to `*ppos`. -/
def Set (comp : Key → Key → Bool) (container : List (idKeyVal Key Value))
    (key : Key) (value : Value) :
    List (idKeyVal Key Value) × Bool × Int :=
  let pos := FirstGE comp container key
  match getEntry container pos with
  | some e =>
    if comp key e.key = false then
      (container.set pos.toNat ⟨e.key, value⟩, false, pos)
    else
      (Insert container key value pos, true, pos)
  | none => (Insert container key value pos, true, pos)

/-- Method `AddIfNew`: assign the value for the given key only if the key is
not present yet; returns the updated container, the C++ return value (true
iff the key was NOT present), and the index written to `*ppos`. -/
def AddIfNew (comp : Key → Key → Bool) (container : List (idKeyVal Key Value))
    (key : Key) (value : Value) :
    List (idKeyVal Key Value) × Bool × Int :=
  let pos := FirstGE comp container key
  match getEntry container pos with
  | some e =>
    if comp key e.key = false then (container, false, pos)
    else (Insert container key value pos, true, pos)
  | none => (Insert container key value pos, true, pos)

/-- Method `Remove`: remove the element with the specified key if it exists;
returns the updated container, the C++ return value (true iff an element was
removed), and the index written to `*ppos`. -/
def Remove (comp : Key → Key → Bool) (container : List (idKeyVal Key Value))
    (key : Key) : List (idKeyVal Key Value) × Bool × Int :=
  let pos := FirstGE comp container key
  match getEntry container pos with
  | some e =>
    if comp key e.key = false then (RemoveIndex container pos, true, pos)
    else (container, false, pos)
  | none => (container, false, pos)

/-- Method `Clear`: empties the map; the `freeBuffer` flag only affects
capacity, which the logical model does not track. -/
def Clear (container : List (idKeyVal Key Value)) (freeBuffer : Bool) :
    List (idKeyVal Key Value) :=
  []

/-- Method `Reserve`: pre-allocates capacity; the logical contents are
unchanged. -/
def Reserve (container : List (idKeyVal Key Value)) (count : Int) :
    List (idKeyVal Key Value) :=
  container

/-- Method `Swap`: exchanges the backing storage of two maps. -/
def Swap (container other : List (idKeyVal Key Value)) :
    List (idKeyVal Key Value) × List (idKeyVal Key Value) :=
  (other, container)

/-- Invariant I1: entries are strictly ascending by key under the
comparator. -/
def Sorted (comp : Key → Key → Bool) (container : List (idKeyVal Key Value)) :
    Prop :=
  container.Pairwise (fun a b => comp a.key b.key = true)

instance decSorted (comp : Key → Key → Bool)
    (container : List (idKeyVal Key Value)) :
    Decidable (Sorted comp container) :=
  decidable_of_iff
    (container.Pairwise fun (a b : idKeyVal Key Value) =>
      comp a.key b.key = true) Iff.rfl

/-- Two keys compare equal under a strict weak ordering: neither is less than
the other. -/
def KeyEquiv (comp : Key → Key → Bool) (a b : Key) : Prop :=
  comp a b = false ∧ comp b a = false

/-- The comparator is transitive. -/
def TransCmp (comp : Key → Key → Bool) : Prop :=
  ∀ a b c, comp a b = true → comp b c = true → comp a c = true

/-- The comparator is irreflexive. -/
def IrreflCmp (comp : Key → Key → Bool) : Prop :=
  ∀ a, comp a a = false

/-- Incomparability under the comparator is transitive (the remaining strict
weak ordering axiom). -/
def IncompTransCmp (comp : Key → Key → Bool) : Prop :=
  ∀ a b c, KeyEquiv comp a b → KeyEquiv comp b c → KeyEquiv comp a c

/-- Decidable test for "some entry has a key comparing equal to the given
key". -/
def HasEqualKey (comp : Key → Key → Bool)
    (container : List (idKeyVal Key Value)) (key : Key) : Bool :=
  container.any fun e => !(comp e.key key) && !(comp key e.key)

/-- Comparator instance idLess specialized to natural-number keys. -/
def natLess (a b : Nat) : Bool :=
  decide (a < b)

/-- Containers reachable from the empty map through any sequence of public
operations (Set, AddIfNew, operator[], Insert with its precondition, Remove,
RemoveIndex, Clear, Reserve, Swap). -/
inductive Reachable [Inhabited Value] (comp : Key → Key → Bool) :
    List (idKeyVal Key Value) → Prop where
  | empty : Reachable comp []
  | set {container} (key : Key) (value : Value)
      (h : Reachable comp container) :
      Reachable comp (Set comp container key value).1
  | addIfNew {container} (key : Key) (value : Value)
      (h : Reachable comp container) :
      Reachable comp (AddIfNew comp container key value).1
  | opIdx {container} (key : Key) (h : Reachable comp container) :
      Reachable comp (opIndex comp container key).1
  | insert {container} (key : Key) (value : Value) (pos : Int)
      (h : Reachable comp container)
      (hpre : InsertPre comp container key pos) :
      Reachable comp (Insert container key value pos)
  | remove {container} (key : Key) (h : Reachable comp container) :
      Reachable comp (Remove comp container key).1
  | removeIndex {container} (pos : Int) (h : Reachable comp container) :
      Reachable comp (RemoveIndex container pos)
  | clear {container} (freeBuffer : Bool) (h : Reachable comp container) :
      Reachable comp (Clear container freeBuffer)
  | reserve {container} (count : Int) (h : Reachable comp container) :
      Reachable comp (Reserve container count)
  | swapFst {container other} (h : Reachable comp container)
      (h2 : Reachable comp other) :
      Reachable comp (Swap container other).1
  | swapSnd {container other} (h : Reachable comp container)
      (h2 : Reachable comp other) :
      Reachable comp (Swap container other).2

end idTFlatMap
namespace idTFlatMap

variable {Key Value : Type}

/-- Totality and bounds of the FirstGE loop: whenever the candidate and span
satisfy the loop invariant minus-one <= pos and pos + span <= N with span >= 1,
the loop reads only in-bounds indices (never hits the none branch) and ends
with a result r satisfying pos <= r and r + 1 <= pos + span. -/
theorem firstGEAux_total (comp : Key → Key → Bool)
    (container : List (idKeyVal Key Value)) (key : Key) :
    ∀ (span : Nat) (pos : Int), 1 ≤ span → -1 ≤ pos →
      pos + (span : Int) ≤ (container.length : Int) →
      ∃ r c, firstGEAux comp container key pos span = some (r, c) ∧
        pos ≤ r ∧ r + 1 ≤ pos + (span : Int) := by
  intro span
  induction span using Nat.strong_induction_on with
  | _ span ih =>
    intro pos h1 h2 h3
    rw [firstGEAux]
    by_cases hsp : 1 < span
    · simp only [if_pos hsp]
      have hidx0 : 0 ≤ pos + ((span / 2 : Nat) : Int) := by omega
      have hidxN : (pos + ((span / 2 : Nat) : Int)).toNat < container.length := by omega
      rw [getEntry, dif_pos ⟨hidx0, hidxN⟩]
      obtain ⟨r, c, hrec, hr1, hr2⟩ :=
        ih (span - span / 2) (by omega)
          (if comp (container.get ⟨(pos + ((span / 2 : Nat) : Int)).toNat, hidxN⟩).key key
            then pos + ((span / 2 : Nat) : Int) else pos)
          (by omega) (by split <;> omega)
          (by split <;> push_cast <;> omega)
      rw [Option.some_bind, hrec]
      refine ⟨r, c + 1, rfl, ?_, ?_⟩
      · split at hr1 <;> omega
      · split at hr2 <;> push_cast at hr2 ⊢ <;> omega
    · simp only [if_neg hsp]
      exact ⟨pos, 0, rfl, le_refl _, by omega⟩

end idTFlatMap
namespace idTFlatMap

variable {Key Value : Type}

/-- Loop invariant of the FirstGE loop for a downward-closed predicate: if
every index at most pos satisfies the comparison against key and every index
from pos + span on fails it, the loop returns some final candidate r, and an
index satisfies the comparison exactly when it is at most r. -/
theorem firstGEAux_inv (comp : Key → Key → Bool)
    (container : List (idKeyVal Key Value)) (key : Key)
    (hdc : ∀ i j (hi : i < container.length) (hj : j < container.length),
      i ≤ j → comp (container.get ⟨j, hj⟩).key key = true →
      comp (container.get ⟨i, hi⟩).key key = true) :
    ∀ (span : Nat) (pos : Int), 1 ≤ span → -1 ≤ pos →
      pos + (span : Int) ≤ (container.length : Int) →
      (∀ i (hi : i < container.length), (i : Int) ≤ pos →
        comp (container.get ⟨i, hi⟩).key key = true) →
      (∀ i (hi : i < container.length), pos + (span : Int) ≤ (i : Int) →
        comp (container.get ⟨i, hi⟩).key key = false) →
      ∃ r c, firstGEAux comp container key pos span = some (r, c) ∧
        pos ≤ r ∧ r + 1 ≤ pos + (span : Int) ∧
        ∀ i (hi : i < container.length),
          (comp (container.get ⟨i, hi⟩).key key = true ↔ (i : Int) ≤ r) := by
  intro span
  induction span using Nat.strong_induction_on with
  | _ span ih =>
    intro pos h1 h2 h3 hlow hhigh
    rw [firstGEAux]
    by_cases hsp : 1 < span
    · simp only [if_pos hsp]
      have hidx0 : 0 ≤ pos + ((span / 2 : Nat) : Int) := by omega
      have hidxN : (pos + ((span / 2 : Nat) : Int)).toNat < container.length := by
        omega
      rw [getEntry, dif_pos ⟨hidx0, hidxN⟩, Option.some_bind]
      by_cases hcmp :
          comp (container.get ⟨(pos + ((span / 2 : Nat) : Int)).toNat, hidxN⟩).key key = true
      · rw [if_pos hcmp]
        obtain ⟨r, c, hrec, hr1, hr2, hiff⟩ :=
          ih (span - span / 2) (by omega) (pos + ((span / 2 : Nat) : Int))
            (by omega) (by omega) (by push_cast; omega)
            (fun i hi hle =>
              hdc i (pos + ((span / 2 : Nat) : Int)).toNat hi hidxN (by omega) hcmp)
            (fun i hi hge => hhigh i hi (by push_cast at hge ⊢; omega))
        rw [hrec]
        exact ⟨r, c + 1, rfl, by omega, by push_cast at hr2 ⊢; omega, hiff⟩
      · rw [if_neg hcmp]
        have hcmp2 :
            comp (container.get ⟨(pos + ((span / 2 : Nat) : Int)).toNat, hidxN⟩).key key
              = false := by
          revert hcmp
          cases comp (container.get ⟨(pos + ((span / 2 : Nat) : Int)).toNat, hidxN⟩).key key <;>
            simp
        obtain ⟨r, c, hrec, hr1, hr2, hiff⟩ :=
          ih (span - span / 2) (by omega) pos (by omega) h2 (by omega)
            hlow
            (fun i hi hge => by
              cases hb : comp (container.get ⟨i, hi⟩).key key
              · rfl
              · have hml : (pos + ((span / 2 : Nat) : Int)).toNat ≤ i := by
                  push_cast at hge ⊢; omega
                have := hdc (pos + ((span / 2 : Nat) : Int)).toNat i hidxN hi hml hb
                rw [hcmp2] at this
                exact absurd this (by decide))
        rw [hrec]
        exact ⟨r, c + 1, rfl, hr1, by omega, hiff⟩
    · simp only [if_neg hsp]
      refine ⟨pos, 0, rfl, le_refl _, by omega, fun i hi => ?_⟩
      constructor
      · intro hc
        by_contra hgt
        have hge : pos + (span : Int) ≤ (i : Int) := by omega
        rw [hhigh i hi hge] at hc
        exact absurd hc (by decide)
      · exact hlow i hi

end idTFlatMap
namespace idTFlatMap

variable {Key Value : Type}

/-- Counting lemma: if a predicate holds exactly on the indices below k, then
countP equals k. -/
theorem countP_eq_of_iff {α : Type} (p : α → Bool) :
    ∀ (l : List α) (k : Nat), k ≤ l.length →
      (∀ i (hi : i < l.length), (p (l.get ⟨i, hi⟩) = true ↔ i < k)) →
      l.countP p = k := by
  intro l
  induction l with
  | nil =>
    intro k hk _
    simp only [List.length_nil, Nat.le_zero] at hk
    simp [hk]
  | cons a t ih =>
    intro k hk hiff
    rw [List.countP_cons]
    match k with
    | 0 =>
      have ha : p a = false := by
        have h0 := hiff 0 (by simp)
        simp at h0
        exact h0
      have ht : t.countP p = 0 := by
        refine ih 0 (by omega) (fun i hi => ?_)
        have := hiff (i + 1) (by simp; omega)
        simpa using this
      simp [ha, ht]
    | k + 1 =>
      have ha : p a = true := by
        have h0 := hiff 0 (by simp)
        simpa using h0
      have ht : t.countP p = k := by
        refine ih k (by simp at hk; omega) (fun i hi => ?_)
        have := hiff (i + 1) (by simp; omega)
        simpa [Nat.succ_lt_succ_iff] using this
      simp [ha, ht]

/-- Sortedness makes the comparison against a fixed key downward closed along
the container. -/
theorem sorted_downward_closed (comp : Key → Key → Bool)
    (container : List (idKeyVal Key Value)) (key : Key)
    (ht : TransCmp comp) (hs : Sorted comp container) :
    ∀ i j (hi : i < container.length) (hj : j < container.length), i ≤ j →
      comp (container.get ⟨j, hj⟩).key key = true →
      comp (container.get ⟨i, hi⟩).key key = true := by
  intro i j hi hj hij hcj
  rcases Nat.eq_or_lt_of_le hij with rfl | hlt
  · exact hcj
  · exact ht _ _ _ (List.pairwise_iff_get.mp hs ⟨i, hi⟩ ⟨j, hj⟩ hlt) hcj

/-- Characterization of FirstGE on a sorted container: the result is in
[0..N] and an index is below it exactly when its entry compares strictly
less than the key. -/
theorem FirstGE_char (comp : Key → Key → Bool)
    (container : List (idKeyVal Key Value)) (key : Key)
    (ht : TransCmp comp) (hs : Sorted comp container) :
    0 ≤ FirstGE comp container key ∧
    FirstGE comp container key ≤ (container.length : Int) ∧
    ∀ i (hi : i < container.length),
      ((i : Int) < FirstGE comp container key ↔
        comp (container.get ⟨i, hi⟩).key key = true) := by
  obtain ⟨r, c, hrec, hr1, hr2, hiff⟩ :=
    firstGEAux_inv comp container key
      (sorted_downward_closed comp container key ht hs)
      (container.length + 1) (-1) (by omega) (by omega) (by push_cast; omega)
      (fun i hi hle => absurd hle (by omega))
      (fun i hi hge => absurd hge (by push_cast; omega))
  rw [FirstGE, hrec]
  simp only [Option.map_some', Option.getD_some]
  refine ⟨by omega, by omega, fun i hi => ?_⟩
  rw [hiff i hi]
  omega

/-- FirstGE always lands in [0..N], for any comparator and container. -/
theorem FirstGE_bounds (comp : Key → Key → Bool)
    (container : List (idKeyVal Key Value)) (key : Key) :
    0 ≤ FirstGE comp container key ∧
    FirstGE comp container key ≤ (container.length : Int) := by
  obtain ⟨r, c, hrec, hr1, hr2⟩ :=
    firstGEAux_total comp container key (container.length + 1) (-1)
      (by omega) (by omega) (by push_cast; omega)
  rw [FirstGE, hrec]
  simp only [Option.map_some', Option.getD_some]
  omega

/-- FirstGE of a sorted container equals the number of entries whose key is
strictly less than the key searched for. -/
theorem FirstGE_eq_countP (comp : Key → Key → Bool)
    (container : List (idKeyVal Key Value)) (key : Key)
    (ht : TransCmp comp) (hs : Sorted comp container) :
    FirstGE comp container key =
      ((container.countP fun e => comp e.key key : Nat) : Int) := by
  obtain ⟨h0, hN, hiff⟩ := FirstGE_char comp container key ht hs
  have hcnt : (container.countP fun e => comp e.key key) =
      (FirstGE comp container key).toNat := by
    refine countP_eq_of_iff _ container _ (by omega) (fun i hi => ?_)
    rw [← hiff i hi]
    omega
  omega

end idTFlatMap
namespace idTFlatMap

variable {Key Value : Type}

/-- Reading getEntry inside bounds. -/
theorem getEntry_eq_some (container : List (idKeyVal Key Value)) (pos : Int)
    (h0 : 0 ≤ pos) (hN : pos.toNat < container.length) :
    getEntry container pos = some (container.get ⟨pos.toNat, hN⟩) :=
  dif_pos ⟨h0, hN⟩

/-- Reading getEntry out of bounds. -/
theorem getEntry_eq_none (container : List (idKeyVal Key Value)) (pos : Int)
    (h : pos < 0 ∨ (container.length : Int) ≤ pos) :
    getEntry container pos = none := by
  rw [getEntry, dif_neg]
  omega

/-- Key equivalence is symmetric. -/
theorem keyEquiv_symm (comp : Key → Key → Bool) {a b : Key}
    (h : KeyEquiv comp a b) : KeyEquiv comp b a :=
  ⟨h.2, h.1⟩

/-- In a strict weak ordering, a key less than one of two equivalent keys is
less than the other. -/
theorem lt_of_lt_of_equiv (comp : Key → Key → Bool) (ht : TransCmp comp)
    (hit : IncompTransCmp comp) {a b c : Key}
    (hab : comp a b = true) (hbc : KeyEquiv comp b c) : comp a c = true := by
  cases hac : comp a c
  · have hca : comp c a = false := by
      cases hca : comp c a
      · rfl
      · have h2 := ht c a b hca hab
        rw [hbc.2] at h2
        exact absurd h2 (by decide)
    have h3 := (hit a c b ⟨hac, hca⟩ (keyEquiv_symm comp hbc)).1
    rw [h3] at hab
    exact absurd hab (by decide)
  · rfl

/-- In a strict weak ordering, a key greater than one of two equivalent keys
is greater than the other. -/
theorem lt_of_equiv_of_lt (comp : Key → Key → Bool) (ht : TransCmp comp)
    (hit : IncompTransCmp comp) {a b c : Key}
    (hab : KeyEquiv comp a b) (hbc : comp b c = true) : comp a c = true := by
  cases hac : comp a c
  · have hca : comp c a = false := by
      cases hca : comp c a
      · rfl
      · have h2 := ht b c a hbc hca
        rw [hab.2] at h2
        exact absurd h2 (by decide)
    have h3 := (hit b a c (keyEquiv_symm comp hab) ⟨hac, hca⟩).1
    rw [h3] at hbc
    exact absurd hbc (by decide)
  · rfl

/-- HasEqualKey decides the existence of an entry whose key compares equal. -/
theorem hasEqualKey_iff (comp : Key → Key → Bool)
    (container : List (idKeyVal Key Value)) (key : Key) :
    HasEqualKey comp container key = true ↔
      ∃ e ∈ container, KeyEquiv comp e.key key := by
  simp [HasEqualKey, List.any_eq_true, KeyEquiv]

/-- An entry whose key compares equal to the searched key sits exactly at
index FirstGE. -/
theorem equal_at_firstGE (comp : Key → Key → Bool)
    (container : List (idKeyVal Key Value)) (key : Key)
    (ht : TransCmp comp) (hit : IncompTransCmp comp) (hs : Sorted comp container)
    {i : Nat} (hi : i < container.length)
    (heq : KeyEquiv comp (container.get ⟨i, hi⟩).key key) :
    (i : Int) = FirstGE comp container key := by
  obtain ⟨h0, hN, hiff⟩ := FirstGE_char comp container key ht hs
  by_contra hne
  have hcases : (i : Int) < FirstGE comp container key ∨
      FirstGE comp container key < (i : Int) := by omega
  rcases hcases with hlt | hgt
  · have := (hiff i hi).mp hlt
    rw [heq.1] at this
    exact absurd this (by decide)
  · have hpN : (FirstGE comp container key).toNat < container.length := by omega
    have hplt : (FirstGE comp container key).toNat < i := by omega
    have hpair := List.pairwise_iff_get.mp hs
      ⟨(FirstGE comp container key).toNat, hpN⟩ ⟨i, hi⟩ hplt
    have hcp := lt_of_lt_of_equiv comp ht hit hpair heq
    have := (hiff (FirstGE comp container key).toNat hpN).mpr hcp
    omega

/-- Dichotomy driving every lookup and mutation: either some entry compares
equal to the key, FirstGE points at it and the guard comparison is false, or
no entry compares equal and the guard comparison (when in bounds) is true. -/
theorem guard_spec (comp : Key → Key → Bool)
    (container : List (idKeyVal Key Value)) (key : Key)
    (ht : TransCmp comp) (hit : IncompTransCmp comp)
    (hs : Sorted comp container) :
    (HasEqualKey comp container key = true ∧
      ∃ hp : (FirstGE comp container key).toNat < container.length,
        getEntry container (FirstGE comp container key) =
          some (container.get ⟨(FirstGE comp container key).toNat, hp⟩) ∧
        comp key (container.get ⟨(FirstGE comp container key).toNat, hp⟩).key
          = false ∧
        KeyEquiv comp
          (container.get ⟨(FirstGE comp container key).toNat, hp⟩).key key)
    ∨ (HasEqualKey comp container key = false ∧
        ∀ e ∈ getEntry container (FirstGE comp container key),
          comp key e.key = true) := by
  obtain ⟨h0, hN, hiff⟩ := FirstGE_char comp container key ht hs
  by_cases hk : HasEqualKey comp container key = true
  · left
    refine ⟨hk, ?_⟩
    obtain ⟨e, hem, heq⟩ := (hasEqualKey_iff comp container key).mp hk
    obtain ⟨n, rfl⟩ := List.mem_iff_get.mp hem
    have hpos := equal_at_firstGE comp container key ht hit hs n.isLt heq
    have hpN : (FirstGE comp container key).toNat < container.length := by
      omega
    have hnv : (FirstGE comp container key).toNat = n.val := by omega
    have hsame : container.get ⟨(FirstGE comp container key).toNat, hpN⟩ =
        container.get n := by
      congr 1
      exact Fin.ext hnv
    refine ⟨hpN, getEntry_eq_some container _ h0 hpN, ?_, ?_⟩
    · rw [hsame]
      exact heq.2
    · rw [hsame]
      exact heq
  · right
    have hk2 : HasEqualKey comp container key = false := by
      revert hk
      cases HasEqualKey comp container key <;> simp
    refine ⟨hk2, fun e hee => ?_⟩
    have hin : 0 ≤ FirstGE comp container key ∧
        (FirstGE comp container key).toNat < container.length := by
      by_contra hout
      rw [getEntry_eq_none container _ (by omega)] at hee
      exact absurd hee (by simp)
    rw [getEntry_eq_some container _ hin.1 hin.2] at hee
    have he : e = container.get ⟨(FirstGE comp container key).toNat, hin.2⟩ := by
      simpa using hee.symm
    cases hc : comp key e.key
    · exfalso
      have hnotlt := (hiff (FirstGE comp container key).toNat hin.2)
      have hcc : comp
          (container.get ⟨(FirstGE comp container key).toNat, hin.2⟩).key key
            = false := by
        cases hcc : comp
            (container.get ⟨(FirstGE comp container key).toNat, hin.2⟩).key key
        · rfl
        · have := hnotlt.mpr hcc
          omega
      have hequiv : KeyEquiv comp
          (container.get ⟨(FirstGE comp container key).toNat, hin.2⟩).key key :=
        ⟨hcc, by rw [← he]; exact hc⟩
      have : HasEqualKey comp container key = true :=
        (hasEqualKey_iff comp container key).mpr
          ⟨_, container.get_mem _ _, hequiv⟩
      rw [hk2] at this
      exact absurd this (by decide)
    · rfl

end idTFlatMap
namespace idTFlatMap

variable {Key Value : Type}

/-- Inserting a new pair at a position bounded below by strictly smaller keys
and above by strictly larger keys preserves strict sortedness. -/
theorem Sorted_insertIdx (comp : Key → Key → Bool)
    (container : List (idKeyVal Key Value)) (key : Key) (value : Value)
    (k : Nat) (hk : k ≤ container.length)
    (hs : Sorted comp container)
    (hbefore : ∀ i (hi : i < container.length), i < k →
      comp (container.get ⟨i, hi⟩).key key = true)
    (hafter : ∀ i (hi : i < container.length), k ≤ i →
      comp key (container.get ⟨i, hi⟩).key = true) :
    Sorted comp (container.insertIdx k ⟨key, value⟩) := by
  have hlen : (container.insertIdx k (⟨key, value⟩ : idKeyVal Key Value)).length
      = container.length + 1 := List.length_insertIdx k container hk
  have hpair := List.pairwise_iff_getElem.mp hs
  rw [Sorted, List.pairwise_iff_getElem]
  intro i j hi hj hij
  rw [hlen] at hi hj
  rcases Nat.lt_trichotomy j k with hjk | hjk | hjk
  · -- both sides land in the original list, below k
    have hik : i < k := by omega
    rw [List.getElem_insertIdx_of_lt container _ k i hik (by omega),
      List.getElem_insertIdx_of_lt container _ k j hjk (by omega)]
    exact hpair i j (by omega) (by omega) hij
  · -- the right element is the new pair
    subst hjk
    have hik : i < j := hij
    rw [List.getElem_insertIdx_of_lt container _ j i hik (by omega),
      List.getElem_insertIdx_self container _ j hk]
    exact hbefore i (by omega) hik
  · -- the right element comes from the original list, above k
    obtain ⟨m, rfl⟩ : ∃ m, j = k + m + 1 := ⟨j - k - 1, by omega⟩
    rw [List.getElem_insertIdx_add_succ container _ k m (by omega)]
    rcases Nat.lt_trichotomy i k with hik | hik | hik
    · rw [List.getElem_insertIdx_of_lt container _ k i hik (by omega)]
      exact hpair i (k + m) (by omega) (by omega) (by omega)
    · subst hik
      rw [List.getElem_insertIdx_self container _ i hk]
      exact hafter (i + m) (by omega) (by omega)
    · obtain ⟨p, rfl⟩ : ∃ p, i = k + p + 1 := ⟨i - k - 1, by omega⟩
      rw [List.getElem_insertIdx_add_succ container _ k p (by omega)]
      exact hpair (k + p) (k + m) (by omega) (by omega) (by omega)

/-- Removing an index preserves strict sortedness. -/
theorem Sorted_eraseIdx (comp : Key → Key → Bool)
    (container : List (idKeyVal Key Value)) (k : Nat)
    (hs : Sorted comp container) :
    Sorted comp (container.eraseIdx k) :=
  hs.sublist (List.eraseIdx_sublist container k)

/-- Overwriting the value of an entry in place, keeping its key, preserves
strict sortedness. -/
theorem Sorted_set_value (comp : Key → Key → Bool)
    (container : List (idKeyVal Key Value)) (k : Nat)
    (hk : k < container.length) (value : Value)
    (hs : Sorted comp container) :
    Sorted comp
      (container.set k ⟨(container.get ⟨k, hk⟩).key, value⟩) := by
  have hpair := List.pairwise_iff_getElem.mp hs
  rw [Sorted, List.pairwise_iff_getElem]
  intro i j hi hj hij
  rw [List.length_set] at hi hj
  rw [List.getElem_set, List.getElem_set]
  by_cases hki : k = i <;> by_cases hkj : k = j
  · omega
  · subst hki
    simp only [if_pos rfl, if_neg hkj]
    exact hpair k j (by omega) (by omega) (by omega)
  · subst hkj
    simp only [if_neg hki, if_pos rfl]
    exact hpair i k (by omega) (by omega) (by omega)
  · simp only [if_neg hki, if_neg hkj]
    exact hpair i j (by omega) (by omega) hij

end idTFlatMap
namespace idTFlatMap

variable {Key Value : Type}

/-- Inserting at the position FirstGE found, when the guard at that position
confirms the key is strictly smaller than the entry there (or the position is
past the end), preserves strict sortedness. -/
theorem Sorted_insert_atFirstGE (comp : Key → Key → Bool)
    (container : List (idKeyVal Key Value)) (key : Key) (value : Value)
    (ht : TransCmp comp) (hs : Sorted comp container)
    (hguard : ∀ e ∈ getEntry container (FirstGE comp container key),
      comp key e.key = true) :
    Sorted comp (Insert container key value (FirstGE comp container key)) := by
  obtain ⟨h0, hN, hiff⟩ := FirstGE_char comp container key ht hs
  rw [Insert]
  refine Sorted_insertIdx comp container key value _ (by omega) hs ?_ ?_
  · intro i hi hilt
    exact (hiff i hi).mp (by omega)
  · intro i hi hige
    have hpN : (FirstGE comp container key).toNat < container.length := by omega
    have hg := hguard _ (by
      rw [getEntry_eq_some container _ h0 hpN]
      exact Option.mem_some_iff.mpr rfl)
    rcases Nat.eq_or_lt_of_le hige with heq | hlt
    · have hsame : container.get ⟨(FirstGE comp container key).toNat, hpN⟩ =
          container.get ⟨i, hi⟩ := by
        congr 1
        exact Fin.ext heq
      rw [hsame] at hg
      exact hg
    · have hpair := List.pairwise_iff_get.mp hs
        ⟨(FirstGE comp container key).toNat, hpN⟩ ⟨i, hi⟩ hlt
      exact ht _ _ _ hg hpair

/-- Inserting at a caller-supplied position satisfying the Insert
precondition preserves strict sortedness. -/
theorem Sorted_Insert_pre (comp : Key → Key → Bool)
    (container : List (idKeyVal Key Value)) (key : Key) (value : Value)
    (pos : Int) (ht : TransCmp comp) (hs : Sorted comp container)
    (hpre : InsertPre comp container key pos) :
    Sorted comp (Insert container key value pos) := by
  obtain ⟨h0, hN, hbef, haft⟩ := hpre
  rw [Num] at hN
  rw [Insert]
  refine Sorted_insertIdx comp container key value _ (by omega) hs ?_ ?_
  · intro i hi hilt
    have h1 : 1 ≤ pos := by omega
    have hprevN : (pos - 1).toNat < container.length := by omega
    have hb := hbef _ (by
      rw [getEntry_eq_some container _ (by omega) hprevN]
      exact Option.mem_some_iff.mpr rfl)
    rcases Nat.eq_or_lt_of_le (show i ≤ (pos - 1).toNat by omega) with heq | hlt
    · have hsame : container.get ⟨i, hi⟩ =
          container.get ⟨(pos - 1).toNat, hprevN⟩ := by
        congr 1
        exact Fin.ext heq
      rw [hsame]
      exact hb
    · exact sorted_downward_closed comp container key ht hs i (pos - 1).toNat
        hi hprevN (by omega) hb
  · intro i hi hige
    have hpN : pos.toNat < container.length := by omega
    have hg := haft _ (by
      rw [getEntry_eq_some container _ h0 hpN]
      exact Option.mem_some_iff.mpr rfl)
    rcases Nat.eq_or_lt_of_le hige with heq | hlt
    · have hsame : container.get ⟨pos.toNat, hpN⟩ = container.get ⟨i, hi⟩ := by
        congr 1
        exact Fin.ext heq
      rw [hsame] at hg
      exact hg
    · have hpair := List.pairwise_iff_get.mp hs ⟨pos.toNat, hpN⟩ ⟨i, hi⟩ hlt
      exact ht _ _ _ hg hpair

end idTFlatMap
namespace idTFlatMap

variable {Key Value : Type}

/-- Elimination form for a successful getEntry read. -/
theorem getEntry_some_elim {container : List (idKeyVal Key Value)} {pos : Int}
    {e : idKeyVal Key Value} (h : getEntry container pos = some e) :
    ∃ (h0 : 0 ≤ pos) (hN : pos.toNat < container.length),
      e = container.get ⟨pos.toNat, hN⟩ := by
  by_cases hb : 0 ≤ pos ∧ pos.toNat < container.length
  · rw [getEntry, dif_pos hb] at h
    exact ⟨hb.1, hb.2, (Option.some_injective _ h).symm⟩
  · rw [getEntry, dif_neg hb] at h
    cases h

/-- Set preserves strict sortedness. -/
theorem Sorted_Set (comp : Key → Key → Bool)
    (container : List (idKeyVal Key Value)) (key : Key) (value : Value)
    (ht : TransCmp comp) (hs : Sorted comp container) :
    Sorted comp (Set comp container key value).1 := by
  rw [Set]
  cases hge : getEntry container (FirstGE comp container key) with
  | none =>
    simp only [hge]
    exact Sorted_insert_atFirstGE comp container key value ht hs
      (fun e he => by rw [hge] at he; cases he)
  | some e =>
    simp only [hge]
    by_cases hc : comp key e.key = false
    · rw [if_pos hc]
      obtain ⟨h0, hN, rfl⟩ := getEntry_some_elim hge
      exact Sorted_set_value comp container _ hN value hs
    · rw [if_neg hc]
      refine Sorted_insert_atFirstGE comp container key value ht hs
        (fun e2 he2 => ?_)
      rw [hge] at he2
      have he2e : e2 = e := by simpa using he2.symm
      subst he2e
      cases hcc : comp key e2.key
      · exact absurd hcc hc
      · rfl

/-- AddIfNew preserves strict sortedness. -/
theorem Sorted_AddIfNew (comp : Key → Key → Bool)
    (container : List (idKeyVal Key Value)) (key : Key) (value : Value)
    (ht : TransCmp comp) (hs : Sorted comp container) :
    Sorted comp (AddIfNew comp container key value).1 := by
  rw [AddIfNew]
  cases hge : getEntry container (FirstGE comp container key) with
  | none =>
    simp only [hge]
    exact Sorted_insert_atFirstGE comp container key value ht hs
      (fun e he => by rw [hge] at he; cases he)
  | some e =>
    simp only [hge]
    by_cases hc : comp key e.key = false
    · rw [if_pos hc]
      exact hs
    · rw [if_neg hc]
      refine Sorted_insert_atFirstGE comp container key value ht hs
        (fun e2 he2 => ?_)
      rw [hge] at he2
      have he2e : e2 = e := by simpa using he2.symm
      subst he2e
      cases hcc : comp key e2.key
      · exact absurd hcc hc
      · rfl

/-- The indexing operator preserves strict sortedness. -/
theorem Sorted_opIndex [Inhabited Value] (comp : Key → Key → Bool)
    (container : List (idKeyVal Key Value)) (key : Key)
    (ht : TransCmp comp) (hs : Sorted comp container) :
    Sorted comp (opIndex comp container key).1 := by
  rw [opIndex]
  cases hge : getEntry container (FirstGE comp container key) with
  | none =>
    simp only [hge]
    exact Sorted_insert_atFirstGE comp container key default ht hs
      (fun e he => by rw [hge] at he; cases he)
  | some e =>
    simp only [hge]
    by_cases hc : comp key e.key = false
    · rw [if_pos hc]
      exact hs
    · rw [if_neg hc]
      refine Sorted_insert_atFirstGE comp container key default ht hs
        (fun e2 he2 => ?_)
      rw [hge] at he2
      have he2e : e2 = e := by simpa using he2.symm
      subst he2e
      cases hcc : comp key e2.key
      · exact absurd hcc hc
      · rfl

/-- Remove preserves strict sortedness. -/
theorem Sorted_Remove (comp : Key → Key → Bool)
    (container : List (idKeyVal Key Value)) (key : Key)
    (hs : Sorted comp container) :
    Sorted comp (Remove comp container key).1 := by
  rw [Remove]
  cases hge : getEntry container (FirstGE comp container key) with
  | none =>
    simp only [hge]
    exact hs
  | some e =>
    simp only [hge]
    by_cases hc : comp key e.key = false
    · rw [if_pos hc]
      exact Sorted_eraseIdx comp container _ hs
    · rw [if_neg hc]
      exact hs

/-- Every reachable container is strictly sorted. -/
theorem Sorted_reachable [Inhabited Value] (comp : Key → Key → Bool)
    (ht : TransCmp comp) {container : List (idKeyVal Key Value)}
    (h : Reachable comp container) : Sorted comp container := by
  induction h with
  | empty => exact List.Pairwise.nil
  | set key value h ih => exact Sorted_Set comp _ key value ht ih
  | addIfNew key value h ih => exact Sorted_AddIfNew comp _ key value ht ih
  | opIdx key h ih => exact Sorted_opIndex comp _ key ht ih
  | insert key value pos h hpre ih =>
    exact Sorted_Insert_pre comp _ key value pos ht ih hpre
  | remove key h ih => exact Sorted_Remove comp _ key ih
  | removeIndex pos h ih => exact Sorted_eraseIdx comp _ _ ih
  | clear freeBuffer h ih => exact List.Pairwise.nil
  | reserve count h ih => exact ih
  | swapFst h h2 ih ih2 => exact ih2
  | swapSnd h h2 ih ih2 => exact ih

end idTFlatMap
namespace idTFlatMap

variable {Key Value : Type}

/-- Membership in a list after a positional overwrite. -/
theorem mem_set_iff {α : Type} (l : List α) (k : Nat) (hk : k < l.length)
    (x e : α) :
    e ∈ l.set k x ↔
      e = x ∨ ∃ i, ∃ hi : i < l.length, i ≠ k ∧ e = l.get ⟨i, hi⟩ := by
  constructor
  · intro h
    obtain ⟨n, hn⟩ := List.mem_iff_get.mp h
    have hlen : (l.set k x).length = l.length := l.length_set k x
    have hn1 : n.val < (l.set k x).length := n.isLt
    have hn2 : n.val < l.length := by omega
    have hset : (l.set k x)[n.val] =
        if k = n.val then x else l[n.val] := List.getElem_set _
    rw [List.get_eq_getElem] at hn
    by_cases hkn : k = n.val
    · left
      rw [← hn, hset, if_pos hkn]
    · right
      refine ⟨n.val, hn2, fun hc => hkn hc.symm, ?_⟩
      rw [← hn, hset, if_neg hkn]
      simp [List.get_eq_getElem]
  · intro h
    rcases h with heq | ⟨i, hi, hik, rfl⟩
    · subst heq
      have hkk : k < (l.set k e).length := by
        rw [l.length_set]
        exact hk
      have hx : (l.set k e)[k] = e := by
        rw [List.getElem_set, if_pos rfl]
      have hmem := @List.getElem_mem _ (l.set k e) k hkk
      rw [hx] at hmem
      exact hmem
    · have hii : i < (l.set k x).length := by
        rw [l.length_set]
        exact hi
      have hx : (l.set k x)[i] = l[i] := by
        rw [List.getElem_set, if_neg (fun hc => hik hc.symm)]
      have hmem := @List.getElem_mem _ (l.set k x) i hii
      rw [hx] at hmem
      simpa [List.get_eq_getElem] using hmem

/-- Overwriting a value in place does not change which keys are present. -/
theorem hasEqualKey_set_value (comp : Key → Key → Bool)
    (container : List (idKeyVal Key Value)) (k : Nat)
    (hk : k < container.length) (v : Value) (key : Key) :
    HasEqualKey comp
        (container.set k ⟨(container.get ⟨k, hk⟩).key, v⟩) key
      = HasEqualKey comp container key := by
  cases hres : HasEqualKey comp container key
  · cases hnew : HasEqualKey comp
        (container.set k ⟨(container.get ⟨k, hk⟩).key, v⟩) key
    · rfl
    · exfalso
      obtain ⟨e, hem, heq⟩ := (hasEqualKey_iff comp _ key).mp hnew
      rw [mem_set_iff container k hk _ e] at hem
      rcases hem with rfl | ⟨i, hi, hik, rfl⟩
      · have : HasEqualKey comp container key = true :=
          (hasEqualKey_iff comp container key).mpr
            ⟨container.get ⟨k, hk⟩, container.get_mem _ _, heq⟩
        rw [hres] at this
        exact absurd this (by decide)
      · have : HasEqualKey comp container key = true :=
          (hasEqualKey_iff comp container key).mpr
            ⟨container.get ⟨i, hi⟩, container.get_mem _ _, heq⟩
        rw [hres] at this
        exact absurd this (by decide)
  · obtain ⟨e, hem, heq⟩ := (hasEqualKey_iff comp container key).mp hres
    obtain ⟨n, hn⟩ := List.mem_iff_get.mp hem
    refine (hasEqualKey_iff comp _ key).mpr ?_
    by_cases hnk : n.val = k
    · refine ⟨⟨(container.get ⟨k, hk⟩).key, v⟩, ?_, ?_⟩
      · rw [mem_set_iff container k hk _ _]
        left
        rfl
      · have : container.get ⟨k, hk⟩ = container.get n := by
          congr 1
          exact Fin.ext hnk.symm
        rw [this, hn]
        exact heq
    · refine ⟨e, ?_, heq⟩
      rw [mem_set_iff container k hk _ e]
      right
      exact ⟨n.val, n.isLt, hnk, by rw [← hn]⟩

/-- Key presence after inserting a new pair. -/
theorem hasEqualKey_insertIdx (comp : Key → Key → Bool)
    (container : List (idKeyVal Key Value)) (k : Nat)
    (hk : k ≤ container.length) (key2 : Key) (v : Value) (key : Key) :
    (HasEqualKey comp (container.insertIdx k ⟨key2, v⟩) key = true ↔
      KeyEquiv comp key2 key ∨ HasEqualKey comp container key = true) := by
  rw [hasEqualKey_iff, hasEqualKey_iff]
  constructor
  · rintro ⟨e, hem, heq⟩
    rw [List.mem_insertIdx hk] at hem
    rcases hem with rfl | hem
    · exact Or.inl heq
    · exact Or.inr ⟨e, hem, heq⟩
  · rintro (heq | ⟨e, hem, heq⟩)
    · exact ⟨⟨key2, v⟩, (List.mem_insertIdx hk).mpr (Or.inl rfl), heq⟩
    · exact ⟨e, (List.mem_insertIdx hk).mpr (Or.inr hem), heq⟩

end idTFlatMap
namespace idTFlatMap

variable {Key Value : Type}

/-- When no entry compares equal to the key, the entry at FirstGE (if any) is
strictly greater than the key. -/
theorem absent_guard (comp : Key → Key → Bool)
    (container : List (idKeyVal Key Value)) (key : Key)
    (ht : TransCmp comp) (hit : IncompTransCmp comp) (hs : Sorted comp container)
    (habs : HasEqualKey comp container key = false) :
    ∀ e ∈ getEntry container (FirstGE comp container key),
      comp key e.key = true := by
  rcases guard_spec comp container key ht hit hs with ⟨hk, _⟩ | ⟨_, hg⟩
  · rw [habs] at hk
    exact absurd hk (by decide)
  · exact hg

/-- Find returns an entry exactly when that entry is stored in the container
and its key compares equal to the searched key. -/
theorem Find_eq_some_iff (comp : Key → Key → Bool)
    (container : List (idKeyVal Key Value)) (key : Key)
    (ht : TransCmp comp) (hit : IncompTransCmp comp) (hs : Sorted comp container)
    (e : idKeyVal Key Value) :
    Find comp container key = some e ↔
      e ∈ container ∧ KeyEquiv comp e.key key := by
  rcases guard_spec comp container key ht hit hs with
    ⟨hk, hp, hge, hcf, hequiv⟩ | ⟨hk, hg⟩
  · rw [Find]
    simp only [hge]
    rw [if_pos hcf]
    constructor
    · intro h
      have he := Option.some_injective _ h
      rw [← he]
      exact ⟨container.get_mem _ _, hequiv⟩
    · rintro ⟨hem, heq⟩
      obtain ⟨n, hn⟩ := List.mem_iff_get.mp hem
      have hne := equal_at_firstGE comp container key ht hit hs n.isLt
        (by rw [hn]; exact heq)
      have h0 := (FirstGE_bounds comp container key).1
      have hnv : (FirstGE comp container key).toNat = n.val := by omega
      have hsame : container.get ⟨(FirstGE comp container key).toNat, hp⟩ =
          container.get n := by
        congr 1
        exact Fin.ext hnv
      rw [hsame, hn]
  · have hnone : Find comp container key = none := by
      rw [Find]
      cases hge : getEntry container (FirstGE comp container key) with
      | none => simp
      | some e2 =>
        have hge2 := hg e2 (by rw [hge]; exact Option.mem_some_iff.mpr rfl)
        simp [hge2]
    rw [hnone]
    constructor
    · intro h
      cases h
    · rintro ⟨hem, heq⟩
      have : HasEqualKey comp container key = true :=
        (hasEqualKey_iff comp container key).mpr ⟨e, hem, heq⟩
      rw [hk] at this
      exact absurd this (by decide)

/-- Find succeeds exactly when some entry compares equal to the key. -/
theorem Find_isSome_iff (comp : Key → Key → Bool)
    (container : List (idKeyVal Key Value)) (key : Key)
    (ht : TransCmp comp) (hit : IncompTransCmp comp)
    (hs : Sorted comp container) :
    (Find comp container key).isSome = true ↔
      HasEqualKey comp container key = true := by
  rw [Option.isSome_iff_exists]
  constructor
  · rintro ⟨e, he⟩
    obtain ⟨hem, heq⟩ := (Find_eq_some_iff comp container key ht hit hs e).mp he
    exact (hasEqualKey_iff comp container key).mpr ⟨e, hem, heq⟩
  · intro hk
    obtain ⟨e, hem, heq⟩ := (hasEqualKey_iff comp container key).mp hk
    exact ⟨e, (Find_eq_some_iff comp container key ht hit hs e).mpr ⟨hem, heq⟩⟩

/-- Shape of Set when the key is absent: insertion at FirstGE. -/
theorem Set_eq_absent (comp : Key → Key → Bool)
    (container : List (idKeyVal Key Value)) (key : Key) (value : Value)
    (ht : TransCmp comp) (hit : IncompTransCmp comp) (hs : Sorted comp container)
    (habs : HasEqualKey comp container key = false) :
    Set comp container key value =
      (Insert container key value (FirstGE comp container key), true,
        FirstGE comp container key) := by
  have hg := absent_guard comp container key ht hit hs habs
  rw [Set]
  cases hge : getEntry container (FirstGE comp container key) with
  | none => simp only [hge]
  | some e =>
    have hge2 := hg e (by rw [hge]; exact Option.mem_some_iff.mpr rfl)
    simp only [hge]
    rw [if_neg]
    simp [hge2]

/-- Shape of Set when the key is present: in-place value overwrite at
FirstGE, preserving the stored key. -/
theorem Set_eq_present (comp : Key → Key → Bool)
    (container : List (idKeyVal Key Value)) (key : Key) (value : Value)
    (ht : TransCmp comp) (hit : IncompTransCmp comp) (hs : Sorted comp container)
    (hpres : HasEqualKey comp container key = true) :
    ∃ hp : (FirstGE comp container key).toNat < container.length,
      KeyEquiv comp
        (container.get ⟨(FirstGE comp container key).toNat, hp⟩).key key ∧
      Set comp container key value =
        (container.set (FirstGE comp container key).toNat
            ⟨(container.get ⟨(FirstGE comp container key).toNat, hp⟩).key,
              value⟩,
          false, FirstGE comp container key) := by
  rcases guard_spec comp container key ht hit hs with
    ⟨hk, hp, hge, hcf, hequiv⟩ | ⟨hk, _⟩
  · refine ⟨hp, hequiv, ?_⟩
    rw [Set]
    simp only [hge]
    rw [if_pos hcf]
  · rw [hpres] at hk
    exact absurd hk (by decide)

/-- Shape of AddIfNew when the key is absent: insertion at FirstGE. -/
theorem AddIfNew_eq_absent (comp : Key → Key → Bool)
    (container : List (idKeyVal Key Value)) (key : Key) (value : Value)
    (ht : TransCmp comp) (hit : IncompTransCmp comp) (hs : Sorted comp container)
    (habs : HasEqualKey comp container key = false) :
    AddIfNew comp container key value =
      (Insert container key value (FirstGE comp container key), true,
        FirstGE comp container key) := by
  have hg := absent_guard comp container key ht hit hs habs
  rw [AddIfNew]
  cases hge : getEntry container (FirstGE comp container key) with
  | none => simp only [hge]
  | some e =>
    have hge2 := hg e (by rw [hge]; exact Option.mem_some_iff.mpr rfl)
    simp only [hge]
    rw [if_neg]
    simp [hge2]

/-- Shape of AddIfNew when the key is present: no change at all. -/
theorem AddIfNew_eq_present (comp : Key → Key → Bool)
    (container : List (idKeyVal Key Value)) (key : Key) (value : Value)
    (ht : TransCmp comp) (hit : IncompTransCmp comp) (hs : Sorted comp container)
    (hpres : HasEqualKey comp container key = true) :
    ∃ hp : (FirstGE comp container key).toNat < container.length,
      KeyEquiv comp
        (container.get ⟨(FirstGE comp container key).toNat, hp⟩).key key ∧
      AddIfNew comp container key value =
        (container, false, FirstGE comp container key) := by
  rcases guard_spec comp container key ht hit hs with
    ⟨hk, hp, hge, hcf, hequiv⟩ | ⟨hk, _⟩
  · refine ⟨hp, hequiv, ?_⟩
    rw [AddIfNew]
    simp only [hge]
    rw [if_pos hcf]
  · rw [hpres] at hk
    exact absurd hk (by decide)

/-- Shape of Remove when the key is absent: no change at all. -/
theorem Remove_eq_absent (comp : Key → Key → Bool)
    (container : List (idKeyVal Key Value)) (key : Key)
    (ht : TransCmp comp) (hit : IncompTransCmp comp) (hs : Sorted comp container)
    (habs : HasEqualKey comp container key = false) :
    Remove comp container key =
      (container, false, FirstGE comp container key) := by
  have hg := absent_guard comp container key ht hit hs habs
  rw [Remove]
  cases hge : getEntry container (FirstGE comp container key) with
  | none => simp only [hge]
  | some e =>
    have hge2 := hg e (by rw [hge]; exact Option.mem_some_iff.mpr rfl)
    simp only [hge]
    rw [if_neg]
    simp [hge2]

/-- Shape of Remove when the key is present: erase the entry at FirstGE. -/
theorem Remove_eq_present (comp : Key → Key → Bool)
    (container : List (idKeyVal Key Value)) (key : Key)
    (ht : TransCmp comp) (hit : IncompTransCmp comp) (hs : Sorted comp container)
    (hpres : HasEqualKey comp container key = true) :
    ∃ hp : (FirstGE comp container key).toNat < container.length,
      KeyEquiv comp
        (container.get ⟨(FirstGE comp container key).toNat, hp⟩).key key ∧
      Remove comp container key =
        (RemoveIndex container (FirstGE comp container key), true,
          FirstGE comp container key) := by
  rcases guard_spec comp container key ht hit hs with
    ⟨hk, hp, hge, hcf, hequiv⟩ | ⟨hk, _⟩
  · refine ⟨hp, hequiv, ?_⟩
    rw [Remove]
    simp only [hge]
    rw [if_pos hcf]
  · rw [hpres] at hk
    exact absurd hk (by decide)

/-- Get is Find followed by taking the value with a default. -/
theorem Get_eq_find (comp : Key → Key → Bool)
    (container : List (idKeyVal Key Value)) (key : Key) (dflt : Value) :
    Get comp container key dflt =
      ((Find comp container key).map idKeyVal.value).getD dflt := by
  rw [Get, Find]
  cases hge : getEntry container (FirstGE comp container key) with
  | none => simp only [hge]; rfl
  | some e =>
    simp only [hge]
    by_cases hc : comp key e.key = false
    · rw [if_pos hc, if_pos hc]
      rfl
    · rw [if_neg hc, if_neg hc]
      rfl

end idTFlatMap
namespace idTFlatMap

variable {Key Value : Type}

/-- Every member of a list with one index erased comes from another index of
the original list. -/
theorem mem_eraseIdx_elim {α : Type} {l : List α} {k : Nat} {e : α}
    (h : e ∈ l.eraseIdx k) :
    ∃ i, ∃ hi : i < l.length, i ≠ k ∧ e = l.get ⟨i, hi⟩ := by
  obtain ⟨n, hn⟩ := List.mem_iff_get.mp h
  have hlen := l.length_eraseIdx k
  by_cases hnk : n.val < k
  · have hiN : n.val < l.length := by split at hlen <;> omega
    refine ⟨n.val, hiN, by omega, ?_⟩
    rw [← hn]
    simp only [List.get_eq_getElem]
    exact List.getElem_eraseIdx_of_lt l k n.val n.isLt hnk
  · have hkN : k < l.length := by
      by_contra hc
      have hnN : n.val < (l.eraseIdx k).length := n.isLt
      split at hlen <;> omega
    have hiN : n.val + 1 < l.length := by split at hlen <;> omega
    refine ⟨n.val + 1, hiN, by omega, ?_⟩
    rw [← hn]
    simp only [List.get_eq_getElem]
    exact List.getElem_eraseIdx_of_ge l k n.val n.isLt (by omega)

/-- Frame description of getEntry after an in-place overwrite. -/
theorem getEntry_set (container : List (idKeyVal Key Value)) (k : Nat)
    (x : idKeyVal Key Value) (i : Int) (hk : k < container.length) :
    getEntry (container.set k x) i =
      if (k : Int) = i then some x else getEntry container i := by
  have hlen : (container.set k x).length = container.length :=
    container.length_set k x
  by_cases hib : 0 ≤ i ∧ i.toNat < container.length
  · rw [getEntry_eq_some container i hib.1 hib.2,
      getEntry_eq_some (container.set k x) i hib.1 (by omega)]
    by_cases hki : (k : Int) = i
    · rw [if_pos hki]
      have hkt : k = i.toNat := by omega
      have hg : (container.set k x).get ⟨i.toNat, by omega⟩ = x := by
        simp only [List.get_eq_getElem]
        rw [List.getElem_set, if_pos hkt]
      rw [hg]
    · rw [if_neg hki]
      have hkt : ¬ k = i.toNat := by omega
      have hg : (container.set k x).get ⟨i.toNat, by omega⟩ =
          container.get ⟨i.toNat, hib.2⟩ := by
        simp only [List.get_eq_getElem]
        rw [List.getElem_set, if_neg hkt]
      rw [hg]
  · rw [getEntry_eq_none container i (by omega),
      getEntry_eq_none (container.set k x) i (by omega),
      if_neg (by omega)]

/-- Frame description of getEntry after an insertion: entries before the
insertion point are unchanged, the new pair sits at the insertion point, and
later entries are shifted up by one. -/
theorem getEntry_insertIdx (container : List (idKeyVal Key Value)) (k : Nat)
    (x : idKeyVal Key Value) (i : Int) (hk : k ≤ container.length) :
    getEntry (container.insertIdx k x) i =
      if i < (k : Int) then getEntry container i
      else if i = (k : Int) then some x
      else getEntry container (i - 1) := by
  have hlen : (container.insertIdx k x).length = container.length + 1 :=
    List.length_insertIdx k container hk
  by_cases hi0 : i < 0
  · rw [getEntry_eq_none (container.insertIdx k x) i (Or.inl hi0),
      if_pos (show i < (k : Int) by omega),
      getEntry_eq_none container i (Or.inl hi0)]
  · by_cases hik : i < (k : Int)
    · have hiN : i.toNat < container.length := by omega
      have hiN2 : i.toNat < (container.insertIdx k x).length := by omega
      rw [if_pos hik, getEntry_eq_some container i (by omega) hiN,
        getEntry_eq_some (container.insertIdx k x) i (by omega) hiN2]
      have hg : (container.insertIdx k x).get ⟨i.toNat, hiN2⟩ =
          container.get ⟨i.toNat, hiN⟩ := by
        simp only [List.get_eq_getElem]
        exact List.getElem_insertIdx_of_lt container x k i.toNat (by omega) hiN
      rw [hg]
    · by_cases hieq : i = (k : Int)
      · rw [if_neg hik, if_pos hieq]
        have hiN2 : i.toNat < (container.insertIdx k x).length := by omega
        rw [getEntry_eq_some (container.insertIdx k x) i (by omega) hiN2]
        have hg : (container.insertIdx k x).get ⟨i.toNat, hiN2⟩ = x := by
          simp only [List.get_eq_getElem]
          have hit2 : i.toNat = k := by omega
          simp only [hit2]
          exact List.getElem_insertIdx_self container x k hk
        rw [hg]
      · rw [if_neg hik, if_neg hieq]
        by_cases hiN : i.toNat < container.length + 1
        · have hiN2 : i.toNat < (container.insertIdx k x).length := by omega
          obtain ⟨m, hm2⟩ : ∃ m, i.toNat = k + m + 1 :=
            ⟨i.toNat - k - 1, by omega⟩
          have hm : k + m < container.length := by omega
          have him : (i - 1).toNat < container.length := by omega
          rw [getEntry_eq_some (container.insertIdx k x) i (by omega) hiN2,
            getEntry_eq_some container (i - 1) (by omega) him]
          have hg : (container.insertIdx k x).get ⟨i.toNat, hiN2⟩ =
              container.get ⟨(i - 1).toNat, him⟩ := by
            simp only [List.get_eq_getElem]
            have him2 : (i - 1).toNat = k + m := by omega
            simp only [hm2, him2]
            exact List.getElem_insertIdx_add_succ container x k m hm
          rw [hg]
        · rw [getEntry_eq_none (container.insertIdx k x) i (by omega),
            getEntry_eq_none container (i - 1) (by omega)]

/-- Find right after Set sees the just-written value. -/
theorem Find_after_Set (comp : Key → Key → Bool)
    (container : List (idKeyVal Key Value)) (key : Key) (value : Value)
    (ht : TransCmp comp) (hirr : IrreflCmp comp) (hit : IncompTransCmp comp)
    (hs : Sorted comp container) :
    (Find comp (Set comp container key value).1 key).map idKeyVal.value
      = some value := by
  cases hpres : HasEqualKey comp container key
  · obtain heq := Set_eq_absent comp container key value ht hit hs hpres
    rw [heq]
    have h0 := (FirstGE_bounds comp container key).1
    have hN := (FirstGE_bounds comp container key).2
    have hkn : (FirstGE comp container key).toNat ≤ container.length := by omega
    have hsorted : Sorted comp (Insert container key value
        (FirstGE comp container key)) :=
      Sorted_insert_atFirstGE comp container key value ht hs
        (absent_guard comp container key ht hit hs hpres)
    have hfind : Find comp (Insert container key value
        (FirstGE comp container key)) key = some ⟨key, value⟩ := by
      rw [Find_eq_some_iff comp _ key ht hit hsorted]
      refine ⟨?_, hirr key, hirr key⟩
      rw [Insert]
      exact (List.mem_insertIdx hkn).mpr (Or.inl rfl)
    rw [hfind]
    rfl
  · obtain ⟨hp, hequiv, heq⟩ :=
      Set_eq_present comp container key value ht hit hs hpres
    rw [heq]
    have hsorted : Sorted comp (container.set
        (FirstGE comp container key).toNat
        ⟨(container.get ⟨(FirstGE comp container key).toNat, hp⟩).key,
          value⟩) :=
      Sorted_set_value comp container _ hp value hs
    have hfind : Find comp (container.set
        (FirstGE comp container key).toNat
        ⟨(container.get ⟨(FirstGE comp container key).toNat, hp⟩).key,
          value⟩) key =
        some ⟨(container.get ⟨(FirstGE comp container key).toNat, hp⟩).key,
          value⟩ := by
      rw [Find_eq_some_iff comp _ key ht hit hsorted]
      refine ⟨?_, hequiv⟩
      rw [mem_set_iff container _ hp]
      exact Or.inl rfl
    rw [hfind]
    rfl

/-- Find right after Remove reports the key as absent. -/
theorem Find_after_Remove (comp : Key → Key → Bool)
    (container : List (idKeyVal Key Value)) (key : Key)
    (ht : TransCmp comp) (hit : IncompTransCmp comp)
    (hs : Sorted comp container) :
    Find comp (Remove comp container key).1 key = none := by
  cases hpres : HasEqualKey comp container key
  · rw [Remove_eq_absent comp container key ht hit hs hpres]
    cases hf : Find comp container key with
    | none => rfl
    | some e =>
      obtain ⟨hem, hequiv⟩ :=
        (Find_eq_some_iff comp container key ht hit hs e).mp hf
      have : HasEqualKey comp container key = true :=
        (hasEqualKey_iff comp container key).mpr ⟨e, hem, hequiv⟩
      rw [hpres] at this
      exact absurd this (by decide)
  · obtain ⟨hp, hequiv, heq⟩ := Remove_eq_present comp container key ht hit hs hpres
    rw [heq]
    have hsorted : Sorted comp (RemoveIndex container
        (FirstGE comp container key)) :=
      Sorted_eraseIdx comp container _ hs
    cases hf : Find comp (RemoveIndex container
        (FirstGE comp container key)) key with
    | none => rfl
    | some e =>
      exfalso
      obtain ⟨hem, hequiv2⟩ :=
        (Find_eq_some_iff comp _ key ht hit hsorted e).mp hf
      rw [RemoveIndex] at hem
      obtain ⟨i, hi, hik, rfl⟩ := mem_eraseIdx_elim hem
      have h0 := (FirstGE_bounds comp container key).1
      have := equal_at_firstGE comp container key ht hit hs hi hequiv2
      omega

end idTFlatMap
namespace idTFlatMap

variable {Key Value : Type}

/-- Setting one key leaves the Find result of any key not comparing equal to
it unchanged. -/
theorem Find_stable_under_Set (comp : Key → Key → Bool)
    (container : List (idKeyVal Key Value)) (key key2 : Key) (value : Value)
    (ht : TransCmp comp) (hit : IncompTransCmp comp) (hs : Sorted comp container)
    (hne : ¬ KeyEquiv comp key2 key) :
    Find comp (Set comp container key2 value).1 key
      = Find comp container key := by
  cases hpres : HasEqualKey comp container key2
  · rw [Set_eq_absent comp container key2 value ht hit hs hpres]
    have hsorted := Sorted_insert_atFirstGE comp container key2 value ht hs
      (absent_guard comp container key2 ht hit hs hpres)
    have h0 := (FirstGE_bounds comp container key2).1
    have hN := (FirstGE_bounds comp container key2).2
    have hkn : (FirstGE comp container key2).toNat ≤ container.length := by
      omega
    cases hf : Find comp container key with
    | some e =>
      obtain ⟨hem, heq⟩ :=
        (Find_eq_some_iff comp container key ht hit hs e).mp hf
      rw [Find_eq_some_iff comp _ key ht hit hsorted e]
      refine ⟨?_, heq⟩
      rw [Insert]
      exact (List.mem_insertIdx hkn).mpr (Or.inr hem)
    | none =>
      cases hf2 : Find comp (Insert container key2 value
          (FirstGE comp container key2)) key with
      | none => rfl
      | some e =>
        exfalso
        obtain ⟨hem, heq⟩ :=
          (Find_eq_some_iff comp _ key ht hit hsorted e).mp hf2
        rw [Insert] at hem
        rcases (List.mem_insertIdx hkn).mp hem with rfl | hem2
        · exact hne heq
        · have := (Find_eq_some_iff comp container key ht hit hs e).mpr
            ⟨hem2, heq⟩
          rw [hf] at this
          cases this
  · obtain ⟨hp, hequiv2, heq2⟩ :=
      Set_eq_present comp container key2 value ht hit hs hpres
    rw [heq2]
    have hsorted := Sorted_set_value comp container _ hp value hs
    cases hf : Find comp container key with
    | some e =>
      obtain ⟨hem, heq⟩ :=
        (Find_eq_some_iff comp container key ht hit hs e).mp hf
      rw [Find_eq_some_iff comp _ key ht hit hsorted e]
      refine ⟨?_, heq⟩
      obtain ⟨n, hn⟩ := List.mem_iff_get.mp hem
      have hinp : n.val ≠ (FirstGE comp container key2).toNat := by
        intro hcc
        apply hne
        have hsame : container.get ⟨(FirstGE comp container key2).toNat, hp⟩ =
            container.get n := by
          congr 1
          exact Fin.ext hcc.symm
        rw [hsame, hn] at hequiv2
        exact hit key2 e.key key (keyEquiv_symm comp hequiv2) heq
      rw [mem_set_iff container _ hp]
      right
      exact ⟨n.val, n.isLt, hinp, by rw [← hn]⟩
    | none =>
      cases hf2 : Find comp (container.set
          (FirstGE comp container key2).toNat
          ⟨(container.get ⟨(FirstGE comp container key2).toNat, hp⟩).key,
            value⟩) key with
      | none => rfl
      | some e =>
        exfalso
        obtain ⟨hem, heq⟩ :=
          (Find_eq_some_iff comp _ key ht hit hsorted e).mp hf2
        rw [mem_set_iff container _ hp] at hem
        rcases hem with rfl | ⟨i, hi, hik, rfl⟩
        · have hgm := container.get_mem (FirstGE comp container key2).toNat hp
          have := (Find_eq_some_iff comp container key ht hit hs
            (container.get ⟨(FirstGE comp container key2).toNat, hp⟩)).mpr
              ⟨hgm, heq⟩
          rw [hf] at this
          cases this
        · have := (Find_eq_some_iff comp container key ht hit hs
            (container.get ⟨i, hi⟩)).mpr ⟨container.get_mem i hi, heq⟩
          rw [hf] at this
          cases this

end idTFlatMap
namespace idTFlatMap

variable {Key Value : Type}

/-- The natural-number less-than comparator is transitive. -/
theorem natLess_trans : TransCmp natLess := by
  intro a b c hab hbc
  simp only [natLess, decide_eq_true_eq] at *
  omega

/-- The natural-number less-than comparator is irreflexive. -/
theorem natLess_irrefl : IrreflCmp natLess := by
  intro a
  simp [natLess]

/-- Incomparability under the natural-number less-than comparator is
transitive. -/
theorem natLess_incompTrans : IncompTransCmp natLess := by
  intro a b c hab hbc
  rcases hab with ⟨h1, h2⟩
  rcases hbc with ⟨h3, h4⟩
  simp only [natLess, decide_eq_false_iff_not] at h1 h2 h3 h4
  refine ⟨?_, ?_⟩ <;> simp only [natLess, decide_eq_false_iff_not] <;> omega

/-- C1: for every map whose entries are strictly ascending by key under the
comparator and every key K, FirstGE(K) returns the smallest index pos in
[0, N] such that the entry at pos (if any) has a key not less than K:
an index is strictly below the result exactly when its entry is strictly
less than K, and the result equals the number of entries whose key is
strictly less than K. -/
theorem claim_C1_firstGE_lower_bound (comp : Key → Key → Bool)
    (container : List (idKeyVal Key Value)) (key : Key)
    (ht : TransCmp comp) (hs : Sorted comp container) :
    FirstGE comp container key =
      ((container.countP fun e => comp e.key key : Nat) : Int) ∧
    0 ≤ FirstGE comp container key ∧
    FirstGE comp container key ≤ Num container ∧
    ∀ i (hi : i < container.length),
      ((i : Int) < FirstGE comp container key ↔
        comp (container.get ⟨i, hi⟩).key key = true) := by
  obtain ⟨h0, hN, hiff⟩ := FirstGE_char comp container key ht hs
  exact ⟨FirstGE_eq_countP comp container key ht hs, h0, hN, hiff⟩

/-- Witness for C1 on the Scenario C map with keys [10, 20]: FirstGE(15) is
1, FirstGE(5) is 0 and FirstGE(25) is 2. -/
theorem claim_C1_firstGE_lower_bound_witness :
    TransCmp natLess ∧
    Sorted natLess [(⟨10, "a"⟩ : idKeyVal Nat String), ⟨20, "b"⟩] ∧
    FirstGE natLess [(⟨10, "a"⟩ : idKeyVal Nat String), ⟨20, "b"⟩] 15 = 1 ∧
    FirstGE natLess [(⟨10, "a"⟩ : idKeyVal Nat String), ⟨20, "b"⟩] 5 = 0 ∧
    FirstGE natLess [(⟨10, "a"⟩ : idKeyVal Nat String), ⟨20, "b"⟩] 25 = 2 := by
  refine ⟨natLess_trans, by decide, ?_, ?_, ?_⟩
  · rw [(claim_C1_firstGE_lower_bound natLess
      [(⟨10, "a"⟩ : idKeyVal Nat String), ⟨20, "b"⟩] 15 natLess_trans
      (by decide)).1]
    decide
  · rw [(claim_C1_firstGE_lower_bound natLess
      [(⟨10, "a"⟩ : idKeyVal Nat String), ⟨20, "b"⟩] 5 natLess_trans
      (by decide)).1]
    decide
  · rw [(claim_C1_firstGE_lower_bound natLess
      [(⟨10, "a"⟩ : idKeyVal Nat String), ⟨20, "b"⟩] 25 natLess_trans
      (by decide)).1]
    decide

/-- C2: strict sortedness is an invariant of every state reachable from the
empty map through the public operations, and consequently no two entries
have keys comparing equal. -/
theorem claim_C2_sortedness_invariant [Inhabited Value]
    (comp : Key → Key → Bool) (ht : TransCmp comp)
    (container : List (idKeyVal Key Value)) (h : Reachable comp container) :
    ∀ i j (hi : i < container.length) (hj : j < container.length), i < j →
      comp (container.get ⟨i, hi⟩).key (container.get ⟨j, hj⟩).key = true ∧
      ¬ KeyEquiv comp (container.get ⟨i, hi⟩).key
        (container.get ⟨j, hj⟩).key := by
  have hs := Sorted_reachable comp ht h
  intro i j hi hj hij
  have hp := List.pairwise_iff_get.mp hs ⟨i, hi⟩ ⟨j, hj⟩ hij
  refine ⟨hp, fun heq => ?_⟩
  rw [heq.1] at hp
  exact absurd hp (by decide)

/-- Witness for C2: the container obtained by inserting 5 then 3 into the
empty map is strictly sorted at the index pair (0, 1). -/
theorem claim_C2_sortedness_invariant_witness :
    TransCmp natLess ∧
    InsertPre natLess ([] : List (idKeyVal Nat String)) 5 0 ∧
    InsertPre natLess (Insert ([] : List (idKeyVal Nat String)) 5 "a" 0) 3 0 ∧
    natLess
      ((Insert (Insert ([] : List (idKeyVal Nat String)) 5 "a" 0) 3 "b" 0).get
        ⟨0, by decide⟩).key
      ((Insert (Insert ([] : List (idKeyVal Nat String)) 5 "a" 0) 3 "b" 0).get
        ⟨1, by decide⟩).key = true := by
  have hpre1 : InsertPre natLess ([] : List (idKeyVal Nat String)) 5 0 := by
    refine ⟨by decide, by decide, ?_, ?_⟩ <;>
      intro e he <;> simp [getEntry] at he
  have hpre2 : InsertPre natLess
      (Insert ([] : List (idKeyVal Nat String)) 5 "a" 0) 3 0 := by
    refine ⟨by decide, by decide, ?_, ?_⟩
    · intro e he
      simp [getEntry] at he
    · intro e he
      simp only [Insert] at he ⊢
      simp [getEntry] at he
      subst he
      decide
  refine ⟨natLess_trans, hpre1, hpre2, ?_⟩
  exact (claim_C2_sortedness_invariant natLess natLess_trans _
    (Reachable.insert 3 "b" 0
      (Reachable.insert 5 "a" 0 Reachable.empty hpre1) hpre2)
    0 1 (by decide) (by decide) (by decide)).1

/-- C9: on every map (any comparator, any key, any size including zero) the
FirstGE loop terminates with every array read in bounds: the instrumented
loop never takes its out-of-bounds branch and its result makes FirstGE land
in [0..N]; on an empty map FirstGE returns 0 after zero comparator calls. -/
theorem claim_C9_firstGE_safe (comp : Key → Key → Bool)
    (container : List (idKeyVal Key Value)) (key : Key) :
    (∃ r c, firstGEAux comp container key (-1) (container.length + 1)
        = some (r, c) ∧ -1 ≤ r ∧ r + 1 ≤ (container.length : Int)) ∧
    FirstGE comp ([] : List (idKeyVal Key Value)) key = 0 ∧
    FirstGECalls comp ([] : List (idKeyVal Key Value)) key = 0 := by
  obtain ⟨r, c, hrec, h1, h2⟩ := firstGEAux_total comp container key
    (container.length + 1) (-1) (by omega) (by omega) (by push_cast; omega)
  push_cast at h2
  refine ⟨⟨r, c, hrec, h1, by omega⟩, ?_, ?_⟩
  · rw [FirstGE, firstGEAux]
    simp
  · rw [FirstGECalls, firstGEAux]
    simp

end idTFlatMap
namespace idTFlatMap

variable {Key Value : Type}

/-- C3: for every sorted map and key K, Find(K) is non-null exactly when some
entry has a key comparing equal to K; the found entry is a stored entry with
an equal key; its value is the value just written by a Set of K, and is
untouched by a Set of any key not comparing equal to K (so it is the value
most recently Set for K, or the inserted value if never overwritten). -/
theorem claim_C3_find_lookup (comp : Key → Key → Bool)
    (container : List (idKeyVal Key Value)) (key : Key)
    (ht : TransCmp comp) (hirr : IrreflCmp comp) (hit : IncompTransCmp comp)
    (hs : Sorted comp container) :
    ((Find comp container key).isSome = true ↔
      HasEqualKey comp container key = true) ∧
    (∀ e, Find comp container key = some e →
      e ∈ container ∧ KeyEquiv comp e.key key) ∧
    (∀ value, (Find comp (Set comp container key value).1 key).map
      idKeyVal.value = some value) ∧
    (∀ key2 value, ¬ KeyEquiv comp key2 key →
      Find comp (Set comp container key2 value).1 key
        = Find comp container key) := by
  refine ⟨Find_isSome_iff comp container key ht hit hs,
    fun e he => (Find_eq_some_iff comp container key ht hit hs e).mp he,
    fun value => Find_after_Set comp container key value ht hirr hit hs,
    fun key2 value hne =>
      Find_stable_under_Set comp container key key2 value ht hit hs hne⟩

/-- Witness for C3 on the map with keys [1, 3]: Find 3 succeeds, Find just
after Set 3 "z" sees "z", and a Set of key 1 does not disturb Find 3. -/
theorem claim_C3_find_lookup_witness :
    TransCmp natLess ∧ IrreflCmp natLess ∧ IncompTransCmp natLess ∧
    Sorted natLess [(⟨1, "p"⟩ : idKeyVal Nat String), ⟨3, "q"⟩] ∧
    ((Find natLess [(⟨1, "p"⟩ : idKeyVal Nat String), ⟨3, "q"⟩] 3).isSome
        = true ↔
      HasEqualKey natLess [(⟨1, "p"⟩ : idKeyVal Nat String), ⟨3, "q"⟩] 3
        = true) ∧
    (Find natLess
      (Set natLess [(⟨1, "p"⟩ : idKeyVal Nat String), ⟨3, "q"⟩] 3 "z").1
      3).map idKeyVal.value = some "z" := by
  have h := claim_C3_find_lookup natLess
    [(⟨1, "p"⟩ : idKeyVal Nat String), ⟨3, "q"⟩] 3 natLess_trans
    natLess_irrefl natLess_incompTrans (by decide)
  exact ⟨natLess_trans, natLess_irrefl, natLess_incompTrans, by decide,
    h.1, h.2.2.1 "z"⟩

/-- C7: round-trip laws on every sorted map: Set(K, V) immediately followed
by Get(K) returns V, and Remove(K) immediately followed by Find(K) returns
the absent sentinel. -/
theorem claim_C7_roundtrip (comp : Key → Key → Bool)
    (container : List (idKeyVal Key Value)) (key : Key) (value : Value)
    (dflt : Value) (ht : TransCmp comp) (hirr : IrreflCmp comp)
    (hit : IncompTransCmp comp) (hs : Sorted comp container) :
    Get comp (Set comp container key value).1 key dflt = value ∧
    Find comp (Remove comp container key).1 key = none := by
  constructor
  · rw [Get_eq_find,
      Find_after_Set comp container key value ht hirr hit hs]
    rfl
  · exact Find_after_Remove comp container key ht hit hs

/-- Witness for C7 on the map with keys [1, 3]: Set 2 then Get 2 yields the
set value, and Remove 3 then Find 3 yields none. -/
theorem claim_C7_roundtrip_witness :
    TransCmp natLess ∧ IrreflCmp natLess ∧ IncompTransCmp natLess ∧
    Sorted natLess [(⟨1, "p"⟩ : idKeyVal Nat String), ⟨3, "q"⟩] ∧
    Get natLess
      (Set natLess [(⟨1, "p"⟩ : idKeyVal Nat String), ⟨3, "q"⟩] 2 "v").1
      2 "d" = "v" ∧
    Find natLess
      (Remove natLess [(⟨1, "p"⟩ : idKeyVal Nat String), ⟨3, "q"⟩] 3).1
      3 = none := by
  have h := claim_C7_roundtrip natLess
    [(⟨1, "p"⟩ : idKeyVal Nat String), ⟨3, "q"⟩] 2 "v" "d" natLess_trans
    natLess_irrefl natLess_incompTrans (by decide)
  have h2 := claim_C7_roundtrip natLess
    [(⟨1, "p"⟩ : idKeyVal Nat String), ⟨3, "q"⟩] 3 "w" "d" natLess_trans
    natLess_irrefl natLess_incompTrans (by decide)
  exact ⟨natLess_trans, natLess_irrefl, natLess_incompTrans, by decide,
    h.1, h2.2⟩

/-- C8: on a sorted map without an entry comparing equal to K the lookups
signal absence without mutating anything: Find returns null, FindIndex
returns -1 and Get returns the supplied default (all three are pure
functions of the container, which they leave untouched by construction). -/
theorem claim_C8_absent_lookup (comp : Key → Key → Bool)
    (container : List (idKeyVal Key Value)) (key : Key) (dflt : Value)
    (ht : TransCmp comp) (hit : IncompTransCmp comp) (hs : Sorted comp container)
    (habs : HasEqualKey comp container key = false) :
    Find comp container key = none ∧
    FindIndex comp container key = -1 ∧
    Get comp container key dflt = dflt := by
  have hg := absent_guard comp container key ht hit hs habs
  have hfind : Find comp container key = none := by
    cases hf : Find comp container key with
    | none => rfl
    | some e =>
      obtain ⟨hem, heq⟩ :=
        (Find_eq_some_iff comp container key ht hit hs e).mp hf
      have : HasEqualKey comp container key = true :=
        (hasEqualKey_iff comp container key).mpr ⟨e, hem, heq⟩
      rw [habs] at this
      exact absurd this (by decide)
  refine ⟨hfind, ?_, ?_⟩
  · rw [FindIndex]
    cases hge : getEntry container (FirstGE comp container key) with
    | none => rfl
    | some e =>
      have hge2 := hg e (by rw [hge]; exact Option.mem_some_iff.mpr rfl)
      simp [hge2]
  · rw [Get_eq_find, hfind]
    rfl

/-- Witness for C8 on Scenario E: Get 99 with default on a map without key 99
returns the default; Find returns none and FindIndex returns -1. -/
theorem claim_C8_absent_lookup_witness :
    TransCmp natLess ∧ IncompTransCmp natLess ∧
    Sorted natLess [(⟨1, "p"⟩ : idKeyVal Nat String), ⟨3, "q"⟩] ∧
    HasEqualKey natLess [(⟨1, "p"⟩ : idKeyVal Nat String), ⟨3, "q"⟩] 99
      = false ∧
    Find natLess [(⟨1, "p"⟩ : idKeyVal Nat String), ⟨3, "q"⟩] 99 = none ∧
    FindIndex natLess [(⟨1, "p"⟩ : idKeyVal Nat String), ⟨3, "q"⟩] 99 = -1 ∧
    Get natLess [(⟨1, "p"⟩ : idKeyVal Nat String), ⟨3, "q"⟩] 99 "default"
      = "default" := by
  have h := claim_C8_absent_lookup natLess
    [(⟨1, "p"⟩ : idKeyVal Nat String), ⟨3, "q"⟩] 99 "default" natLess_trans
    natLess_incompTrans (by decide) (by decide)
  exact ⟨natLess_trans, natLess_incompTrans, by decide, by decide,
    h.1, h.2.1, h.2.2⟩

/-- C5: removing an absent key returns false and leaves the map completely
unchanged (the returned container is the input container itself), while the
reported position is the index where the entry would have been, namely the
number of entries with strictly smaller keys. -/
theorem claim_C5_remove_absent (comp : Key → Key → Bool)
    (container : List (idKeyVal Key Value)) (key : Key)
    (ht : TransCmp comp) (hit : IncompTransCmp comp) (hs : Sorted comp container)
    (habs : HasEqualKey comp container key = false) :
    Remove comp container key =
      (container, false, FirstGE comp container key) ∧
    FirstGE comp container key =
      ((container.countP fun e => comp e.key key : Nat) : Int) := by
  exact ⟨Remove_eq_absent comp container key ht hit hs habs,
    FirstGE_eq_countP comp container key ht hs⟩

/-- Witness for C5 following Scenario B: after removing 3 from [1,3,5,7] the
map is [1,5,7]; a second Remove 3 returns false with the map unchanged. -/
theorem claim_C5_remove_absent_witness :
    TransCmp natLess ∧ IncompTransCmp natLess ∧
    Sorted natLess
      [(⟨1, "p"⟩ : idKeyVal Nat String), ⟨5, "r"⟩, ⟨7, "s"⟩] ∧
    HasEqualKey natLess
      [(⟨1, "p"⟩ : idKeyVal Nat String), ⟨5, "r"⟩, ⟨7, "s"⟩] 3 = false ∧
    Remove natLess
      [(⟨1, "p"⟩ : idKeyVal Nat String), ⟨5, "r"⟩, ⟨7, "s"⟩] 3 =
      ([(⟨1, "p"⟩ : idKeyVal Nat String), ⟨5, "r"⟩, ⟨7, "s"⟩], false,
        FirstGE natLess
          [(⟨1, "p"⟩ : idKeyVal Nat String), ⟨5, "r"⟩, ⟨7, "s"⟩] 3) := by
  have h := claim_C5_remove_absent natLess
    [(⟨1, "p"⟩ : idKeyVal Nat String), ⟨5, "r"⟩, ⟨7, "s"⟩] 3 natLess_trans
    natLess_incompTrans (by decide) (by decide)
  exact ⟨natLess_trans, natLess_incompTrans, by decide, by decide, h.1⟩

end idTFlatMap
namespace idTFlatMap

variable {Key Value : Type}

/-- C4: Set overwrites the value in place when an entry with an equal key
exists and otherwise inserts the new pair at the sorted position FirstGE; it
returns true exactly when the key was newly added, writes FirstGE to the
output position, keeps the map sorted, and the entry at the reported index
carries the just-written value. -/
theorem claim_C4_set_behavior (comp : Key → Key → Bool)
    (container : List (idKeyVal Key Value)) (key : Key) (value : Value)
    (ht : TransCmp comp) (hit : IncompTransCmp comp)
    (hs : Sorted comp container) :
    ((Set comp container key value).2.1 = true ↔
      HasEqualKey comp container key = false) ∧
    (Set comp container key value).2.2 = FirstGE comp container key ∧
    Sorted comp (Set comp container key value).1 ∧
    (HasEqualKey comp container key = false →
      (Set comp container key value).1 =
        Insert container key value (FirstGE comp container key)) ∧
    (HasEqualKey comp container key = true →
      ∃ hp : (FirstGE comp container key).toNat < container.length,
        (Set comp container key value).1 =
          container.set (FirstGE comp container key).toNat
            ⟨(container.get ⟨(FirstGE comp container key).toNat, hp⟩).key,
              value⟩) ∧
    ∃ e, getEntry (Set comp container key value).1
        (Set comp container key value).2.2 = some e ∧ e.value = value := by
  have h0 := (FirstGE_bounds comp container key).1
  have hN := (FirstGE_bounds comp container key).2
  cases hpres : HasEqualKey comp container key
  · have heq := Set_eq_absent comp container key value ht hit hs hpres
    rw [heq]
    refine ⟨by simp, rfl, ?_, fun hh => rfl, ?_, ?_⟩
    · exact Sorted_insert_atFirstGE comp container key value ht hs
        (absent_guard comp container key ht hit hs hpres)
    · intro hh
      exact absurd hh (by decide)
    · refine ⟨⟨key, value⟩, ?_, rfl⟩
      rw [Insert, getEntry_insertIdx container
        (FirstGE comp container key).toNat ⟨key, value⟩
        (FirstGE comp container key) (by omega)]
      rw [if_neg (by omega), if_pos (by omega)]
  · obtain ⟨hp, hequiv, heq⟩ :=
      Set_eq_present comp container key value ht hit hs hpres
    rw [heq]
    refine ⟨by simp, rfl, ?_, ?_, fun hh => ⟨hp, rfl⟩, ?_⟩
    · exact Sorted_set_value comp container _ hp value hs
    · intro hh
      exact absurd hh (by decide)
    · refine ⟨⟨(container.get
        ⟨(FirstGE comp container key).toNat, hp⟩).key, value⟩, ?_, rfl⟩
      rw [getEntry_set container (FirstGE comp container key).toNat
        ⟨(container.get ⟨(FirstGE comp container key).toNat, hp⟩).key, value⟩
        (FirstGE comp container key) hp]
      rw [if_pos (by omega)]

/-- Witness for C4 following Scenario A: on the sorted map [3, 5] setting
key 5 again returns false, and on [3] setting key 5 returns true. -/
theorem claim_C4_set_behavior_witness :
    TransCmp natLess ∧ IncompTransCmp natLess ∧
    Sorted natLess [(⟨3, "b"⟩ : idKeyVal Nat String), ⟨5, "a"⟩] ∧
    HasEqualKey natLess [(⟨3, "b"⟩ : idKeyVal Nat String), ⟨5, "a"⟩] 5
      = true ∧
    ((Set natLess [(⟨3, "b"⟩ : idKeyVal Nat String), ⟨5, "a"⟩] 5 "c").2.1
        = true ↔
      HasEqualKey natLess [(⟨3, "b"⟩ : idKeyVal Nat String), ⟨5, "a"⟩] 5
        = false) ∧
    ((Set natLess [(⟨3, "b"⟩ : idKeyVal Nat String)] 5 "a").2.1 = true ↔
      HasEqualKey natLess [(⟨3, "b"⟩ : idKeyVal Nat String)] 5 = false) := by
  have h1 := claim_C4_set_behavior natLess
    [(⟨3, "b"⟩ : idKeyVal Nat String), ⟨5, "a"⟩] 5 "c" natLess_trans
    natLess_incompTrans (by decide)
  have h2 := claim_C4_set_behavior natLess
    [(⟨3, "b"⟩ : idKeyVal Nat String)] 5 "a" natLess_trans
    natLess_incompTrans (by decide)
  exact ⟨natLess_trans, natLess_incompTrans, by decide, by decide, h1.1, h2.1⟩

/-- C6: AddIfNew inserts the pair at the sorted position only when no entry
compares equal to the key, leaves the container untouched otherwise, returns
true exactly when an insertion occurred, writes FirstGE to the output
position, and the entry found at the reported index is either the untouched
existing entry with an equal key or the newly inserted pair. -/
theorem claim_C6_addIfNew_behavior (comp : Key → Key → Bool)
    (container : List (idKeyVal Key Value)) (key : Key) (value : Value)
    (ht : TransCmp comp) (hit : IncompTransCmp comp)
    (hs : Sorted comp container) :
    ((AddIfNew comp container key value).2.1 = true ↔
      HasEqualKey comp container key = false) ∧
    (AddIfNew comp container key value).2.2 = FirstGE comp container key ∧
    Sorted comp (AddIfNew comp container key value).1 ∧
    (HasEqualKey comp container key = true →
      (AddIfNew comp container key value).1 = container) ∧
    (HasEqualKey comp container key = false →
      (AddIfNew comp container key value).1 =
        Insert container key value (FirstGE comp container key)) ∧
    ∃ e, getEntry (AddIfNew comp container key value).1
        (AddIfNew comp container key value).2.2 = some e ∧
      (KeyEquiv comp e.key key ∨ e = ⟨key, value⟩) := by
  have h0 := (FirstGE_bounds comp container key).1
  have hN := (FirstGE_bounds comp container key).2
  cases hpres : HasEqualKey comp container key
  · have heq := AddIfNew_eq_absent comp container key value ht hit hs hpres
    rw [heq]
    refine ⟨by simp, rfl, ?_, ?_, fun hh => rfl, ?_⟩
    · exact Sorted_insert_atFirstGE comp container key value ht hs
        (absent_guard comp container key ht hit hs hpres)
    · intro hh
      exact absurd hh (by decide)
    · refine ⟨⟨key, value⟩, ?_, Or.inr rfl⟩
      rw [Insert, getEntry_insertIdx container
        (FirstGE comp container key).toNat ⟨key, value⟩
        (FirstGE comp container key) (by omega)]
      rw [if_neg (by omega), if_pos (by omega)]
  · obtain ⟨hp, hequiv, heq⟩ :=
      AddIfNew_eq_present comp container key value ht hit hs hpres
    rw [heq]
    refine ⟨by simp, rfl, hs, fun hh => rfl, ?_, ?_⟩
    · intro hh
      exact absurd hh (by decide)
    · exact ⟨container.get ⟨(FirstGE comp container key).toNat, hp⟩,
        getEntry_eq_some container _ h0 hp, Or.inl hequiv⟩

/-- Witness for C6 following Scenario D: AddIfNew 4 on the empty map inserts
{4, x}; AddIfNew 4 again on the resulting one-entry map returns false and
leaves the value "x" in place. -/
theorem claim_C6_addIfNew_behavior_witness :
    TransCmp natLess ∧ IncompTransCmp natLess ∧
    Sorted natLess ([] : List (idKeyVal Nat String)) ∧
    Sorted natLess [(⟨4, "x"⟩ : idKeyVal Nat String)] ∧
    ((AddIfNew natLess ([] : List (idKeyVal Nat String)) 4 "x").2.1 = true ↔
      HasEqualKey natLess ([] : List (idKeyVal Nat String)) 4 = false) ∧
    ((AddIfNew natLess [(⟨4, "x"⟩ : idKeyVal Nat String)] 4 "y").2.1 = true ↔
      HasEqualKey natLess [(⟨4, "x"⟩ : idKeyVal Nat String)] 4 = false) ∧
    (HasEqualKey natLess [(⟨4, "x"⟩ : idKeyVal Nat String)] 4 = true →
      (AddIfNew natLess [(⟨4, "x"⟩ : idKeyVal Nat String)] 4 "y").1
        = [(⟨4, "x"⟩ : idKeyVal Nat String)]) := by
  have h1 := claim_C6_addIfNew_behavior natLess
    ([] : List (idKeyVal Nat String)) 4 "x" natLess_trans
    natLess_incompTrans (by decide)
  have h2 := claim_C6_addIfNew_behavior natLess
    [(⟨4, "x"⟩ : idKeyVal Nat String)] 4 "y" natLess_trans
    natLess_incompTrans (by decide)
  exact ⟨natLess_trans, natLess_incompTrans, by decide, by decide,
    h1.1, h2.1, h2.2.2.2.1⟩

/-- C10: frame property of Set.  When Set returns false the length is
unchanged, every position other than the reported one reads back unchanged,
and at the reported position the key is the old key and only the value is
replaced.  When Set returns true the length grows by one, positions below
the reported one are unchanged and every old position at or above it is
shifted up by exactly one. -/
theorem claim_C10_set_frame (comp : Key → Key → Bool)
    (container : List (idKeyVal Key Value)) (key : Key) (value : Value)
    (ht : TransCmp comp) (hit : IncompTransCmp comp)
    (hs : Sorted comp container) :
    ((Set comp container key value).2.1 = false →
      Num (Set comp container key value).1 = Num container ∧
      (∀ i : Int, i ≠ (Set comp container key value).2.2 →
        getEntry (Set comp container key value).1 i = getEntry container i) ∧
      ∃ e e2, getEntry container (Set comp container key value).2.2 = some e ∧
        getEntry (Set comp container key value).1
          (Set comp container key value).2.2 = some e2 ∧
        e2.key = e.key ∧ e2.value = value) ∧
    ((Set comp container key value).2.1 = true →
      Num (Set comp container key value).1 = Num container + 1 ∧
      (∀ i : Int, i < (Set comp container key value).2.2 →
        getEntry (Set comp container key value).1 i = getEntry container i) ∧
      (∀ i : Int, (Set comp container key value).2.2 ≤ i →
        getEntry (Set comp container key value).1 (i + 1)
          = getEntry container i)) := by
  have h0 := (FirstGE_bounds comp container key).1
  have hN := (FirstGE_bounds comp container key).2
  cases hpres : HasEqualKey comp container key
  · have heq := Set_eq_absent comp container key value ht hit hs hpres
    have h1eq : (Set comp container key value).1 =
        Insert container key value (FirstGE comp container key) := by
      rw [heq]
    have h21 : (Set comp container key value).2.1 = true := by
      rw [heq]
    have h22 : (Set comp container key value).2.2 =
        FirstGE comp container key := by
      rw [heq]
    constructor
    · intro hh
      rw [h21] at hh
      exact absurd hh (by decide)
    · intro hh
      refine ⟨?_, ?_, ?_⟩
      · rw [h1eq, Num, Num, Insert, List.length_insertIdx
          (FirstGE comp container key).toNat container (by omega)]
        push_cast
        omega
      · intro i hi
        rw [h22] at hi
        rw [h1eq, Insert, getEntry_insertIdx container
          (FirstGE comp container key).toNat ⟨key, value⟩ i (by omega),
          if_pos (by omega)]
      · intro i hi
        rw [h22] at hi
        rw [h1eq, Insert, getEntry_insertIdx container
          (FirstGE comp container key).toNat ⟨key, value⟩ (i + 1) (by omega),
          if_neg (by omega), if_neg (by omega)]
        have hsub : i + 1 - 1 = i := by omega
        rw [hsub]
  · obtain ⟨hp, hequiv, heq⟩ :=
      Set_eq_present comp container key value ht hit hs hpres
    have h1eq : (Set comp container key value).1 =
        container.set (FirstGE comp container key).toNat
          ⟨(container.get ⟨(FirstGE comp container key).toNat, hp⟩).key,
            value⟩ := by
      rw [heq]
    have h21 : (Set comp container key value).2.1 = false := by
      rw [heq]
    have h22 : (Set comp container key value).2.2 =
        FirstGE comp container key := by
      rw [heq]
    constructor
    · intro hh
      refine ⟨?_, ?_, ?_⟩
      · rw [h1eq, Num, Num, container.length_set]
      · intro i hi
        rw [h22] at hi
        rw [h1eq, getEntry_set container (FirstGE comp container key).toNat
          ⟨(container.get ⟨(FirstGE comp container key).toNat, hp⟩).key,
            value⟩ i hp,
          if_neg (by omega)]
      · rw [h22, h1eq]
        refine ⟨container.get ⟨(FirstGE comp container key).toNat, hp⟩,
          ⟨(container.get ⟨(FirstGE comp container key).toNat, hp⟩).key,
            value⟩,
          getEntry_eq_some container _ h0 hp, ?_, rfl, rfl⟩
        rw [getEntry_set container (FirstGE comp container key).toNat
          ⟨(container.get ⟨(FirstGE comp container key).toNat, hp⟩).key,
            value⟩ (FirstGE comp container key) hp,
          if_pos (by omega)]
    · intro hh
      rw [h21] at hh
      exact absurd hh (by decide)

/-- Witness for C10: overwriting key 5 on the sorted map [3, 5] reports
false with length unchanged, and setting the fresh key 4 reports true with
length grown by one. -/
theorem claim_C10_set_frame_witness :
    TransCmp natLess ∧ IncompTransCmp natLess ∧
    Sorted natLess [(⟨3, "b"⟩ : idKeyVal Nat String), ⟨5, "a"⟩] ∧
    ((Set natLess [(⟨3, "b"⟩ : idKeyVal Nat String), ⟨5, "a"⟩] 5 "c").2.1
        = false →
      Num (Set natLess
        [(⟨3, "b"⟩ : idKeyVal Nat String), ⟨5, "a"⟩] 5 "c").1 =
        Num [(⟨3, "b"⟩ : idKeyVal Nat String), ⟨5, "a"⟩] ∧
      (∀ i : Int, i ≠ (Set natLess
          [(⟨3, "b"⟩ : idKeyVal Nat String), ⟨5, "a"⟩] 5 "c").2.2 →
        getEntry (Set natLess
          [(⟨3, "b"⟩ : idKeyVal Nat String), ⟨5, "a"⟩] 5 "c").1 i =
          getEntry [(⟨3, "b"⟩ : idKeyVal Nat String), ⟨5, "a"⟩] i) ∧
      ∃ e e2, getEntry [(⟨3, "b"⟩ : idKeyVal Nat String), ⟨5, "a"⟩]
          (Set natLess
            [(⟨3, "b"⟩ : idKeyVal Nat String), ⟨5, "a"⟩] 5 "c").2.2
            = some e ∧
        getEntry (Set natLess
          [(⟨3, "b"⟩ : idKeyVal Nat String), ⟨5, "a"⟩] 5 "c").1
          (Set natLess
            [(⟨3, "b"⟩ : idKeyVal Nat String), ⟨5, "a"⟩] 5 "c").2.2
            = some e2 ∧
        e2.key = e.key ∧ e2.value = "c") := by
  have h := claim_C10_set_frame natLess
    [(⟨3, "b"⟩ : idKeyVal Nat String), ⟨5, "a"⟩] 5 "c" natLess_trans
    natLess_incompTrans (by decide)
  exact ⟨natLess_trans, natLess_incompTrans, by decide, h.1⟩

end idTFlatMap
